import Mathlib

/-!
Verification of the match-cost scoring algorithm of the `matchcosts` command
(`process_match` and its helpers in `src/commands/osu/match_costs.rs`).

The hash maps of the source (`hashbrown::HashMap`) are embedded as association
lists whose iteration order is the insertion order of the keys; `f32`
arithmetic is idealised as exact rational arithmetic for the point-cost
pipeline and as real arithmetic (with `Real.rpow` for `powf`) for the final
aggregation stage.  The `.unwrap()` calls of the source become `Option`
failures, so that "the code never panics" is the statement that
`process_match` returns `some`.
-/

set_option autoImplicit false

namespace Bathbot

/-- Team of a multiplayer score (`rosu_v2::prelude::Team`). -/
inductive Team where
  | none
  | blue
  | red
deriving DecidableEq, Repr

/-- One score record inside a game (the fields of `MatchScore` that
`process_match` reads).  Mods are a bitmask, `NoFail` being bit 0. -/
structure MatchScore where
  user_id : ℕ
  score : ℕ
  team : Team
  mods : ℕ
deriving DecidableEq, Repr

/-- One game of the match (the fields of `MatchGame` that `process_match`
reads); `teamVS` is `team_type == TeamType::TeamVS`. -/
structure MatchGame where
  scores : List MatchScore
  teamVS : Bool
deriving DecidableEq, Repr

/-- `score.mods - GameMods::NoFail`: clear the `NoFail` bit (bit 0) of the
mods bitmask. -/
def modsWithoutNF (m : ℕ) : ℕ := m - m % 2

/-- Flat additive bonus for each participated game. -/
def FLAT_PARTICIPATION_BONUS : ℚ := 0.5

/-- Exponent base of the participation scaling. -/
def BASE_PARTICIPATION_BONUS : ℝ := 1.4

/-- Exponent of the participation scaling. -/
def EXP_PARTICIPATION_BONUS : ℝ := 0.6

/-- Multiplier for the tiebreaker game's point cost. -/
def TIEBREAKER_BONUS : ℚ := 2.0

/-- Global multiplier per mod combination (if at least 3). -/
def MOD_BONUS : ℚ := 0.02

section AssocList

variable {κ : Type} {α : Type} [DecidableEq κ]

/-- `map.entry(k).and_modify(f).or_insert(v₀)` on an insertion-ordered
association list: modify the existing entry in place, or append a fresh one. -/
def upsert (k : κ) (f : α → α) (v₀ : α) : List (κ × α) → List (κ × α)
  | [] => [(k, v₀)]
  | (k', v) :: t => if k' = k then (k', f v) :: t else (k', v) :: upsert k f v₀ t

/-- `map.get(k)` on an association list. -/
def lookupA (k : κ) : List (κ × α) → Option α
  | [] => Option.none
  | (k', v) :: t => if k' = k then some v else lookupA k t

/-- `map.entry(k).and_modify(f)` (no insertion when the key is absent). -/
def amodify (k : κ) (f : α → α) : List (κ × α) → List (κ × α)
  | [] => []
  | (k', v) :: t => if k' = k then (k', f v) :: t else (k', v) :: amodify k f t

@[simp] theorem lookupA_nil (k : κ) : lookupA k ([] : List (κ × α)) = Option.none := rfl

theorem lookupA_upsert_self (k : κ) (f : α → α) (v₀ : α) (l : List (κ × α)) :
    lookupA k (upsert k f v₀ l) =
      some (match lookupA k l with | Option.none => v₀ | some v => f v) := by
  induction l with
  | nil => simp [upsert, lookupA]
  | cons p t ih =>
    obtain ⟨k', v⟩ := p
    by_cases h : k' = k
    · simp [upsert, lookupA, h]
    · simp [upsert, lookupA, h, ih]

theorem lookupA_upsert_ne (k j : κ) (f : α → α) (v₀ : α) (l : List (κ × α))
    (h : j ≠ k) : lookupA j (upsert k f v₀ l) = lookupA j l := by
  induction l with
  | nil => simp [upsert, lookupA, Ne.symm h]
  | cons p t ih =>
    obtain ⟨k', v⟩ := p
    by_cases hk : k' = k
    · subst hk
      simp [upsert, lookupA, Ne.symm h]
    · simp [upsert, lookupA, hk, ih]

theorem lookupA_amodify_self (k : κ) (f : α → α) (l : List (κ × α)) :
    lookupA k (amodify k f l) = (lookupA k l).map f := by
  induction l with
  | nil => simp [amodify]
  | cons p t ih =>
    obtain ⟨k', v⟩ := p
    by_cases h : k' = k
    · simp [amodify, lookupA, h]
    · simp [amodify, lookupA, h, ih]

theorem lookupA_amodify_ne (k j : κ) (f : α → α) (l : List (κ × α))
    (h : j ≠ k) : lookupA j (amodify k f l) = lookupA j l := by
  induction l with
  | nil => simp [amodify]
  | cons p t ih =>
    obtain ⟨k', v⟩ := p
    by_cases hk : k' = k
    · subst hk
      simp [amodify, lookupA, Ne.symm h]
    · simp [amodify, lookupA, hk, ih]

/-- Keys of an association list, in insertion order. -/
def keysA (l : List (κ × α)) : List κ := l.map Prod.fst

theorem keysA_upsert (k : κ) (f : α → α) (v₀ : α) (l : List (κ × α)) :
    keysA (upsert k f v₀ l) = if k ∈ keysA l then keysA l else keysA l ++ [k] := by
  induction l with
  | nil => simp [upsert, keysA]
  | cons p t ih =>
    obtain ⟨k', v⟩ := p
    by_cases h : k' = k
    · simp [upsert, keysA, h]
    · have : ¬ k = k' := fun hk => h hk.symm
      simp only [upsert, if_neg h, keysA, List.map_cons, List.mem_cons, this, false_or]
      simp only [keysA] at ih
      rw [ih]
      by_cases hm : k ∈ List.map Prod.fst t <;> simp [hm]

theorem keysA_amodify (k : κ) (f : α → α) (l : List (κ × α)) :
    keysA (amodify k f l) = keysA l := by
  induction l with
  | nil => rfl
  | cons p t ih =>
    obtain ⟨k', v⟩ := p
    by_cases h : k' = k
    · simp [amodify, keysA, h]
    · simp only [amodify, if_neg h, keysA, List.map_cons]
      simpa [keysA] using ih

theorem lookupA_eq_none_iff (k : κ) (l : List (κ × α)) :
    lookupA k l = Option.none ↔ k ∉ keysA l := by
  induction l with
  | nil => simp [keysA]
  | cons p t ih =>
    obtain ⟨k', v⟩ := p
    by_cases h : k' = k
    · simp [lookupA, keysA, h]
    · simp [lookupA, keysA, h, ih, Ne.symm h]

theorem lookupA_isSome_of_mem_keys (k : κ) (l : List (κ × α)) (h : k ∈ keysA l) :
    ∃ v, lookupA k l = some v := by
  cases hl : lookupA k l with
  | none => exact absurd ((lookupA_eq_none_iff k l).mp hl) (fun hn => hn h)
  | some v => exact ⟨v, rfl⟩

theorem mem_keys_of_lookupA_eq_some (k : κ) (v : α) (l : List (κ × α))
    (h : lookupA k l = some v) : k ∈ keysA l := by
  by_contra hn
  rw [← lookupA_eq_none_iff k l] at hn
  rw [h] at hn
  exact Option.noConfusion hn

theorem keysA_nodup_upsert (k : κ) (f : α → α) (v₀ : α) (l : List (κ × α))
    (h : (keysA l).Nodup) : (keysA (upsert k f v₀ l)).Nodup := by
  rw [keysA_upsert]
  by_cases hm : k ∈ keysA l
  · simpa [hm] using h
  · rw [if_neg hm, List.nodup_append_comm]
    simpa [List.nodup_cons] using ⟨hm, h⟩

theorem lookupA_eq_of_mem_of_nodup (l : List (κ × α)) (e : κ × α) :
    e ∈ l → (keysA l).Nodup → lookupA e.1 l = some e.2 := by
  induction l with
  | nil => intro hmem _; cases hmem
  | cons p t ih =>
    obtain ⟨k', v⟩ := p
    intro hmem hnd
    rcases List.mem_cons.mp hmem with hmem | hmem
    · subst hmem
      simp [lookupA]
    · have hk : k' ≠ e.1 := by
        intro hkeq
        have hmemk : e.1 ∈ keysA t := List.mem_map_of_mem Prod.fst hmem
        simp only [keysA, List.map_cons, List.nodup_cons] at hnd
        exact hnd.1 (by rw [hkeq]; exact hmemk)
      have hnd' : (keysA t).Nodup := by
        simp only [keysA, List.map_cons, List.nodup_cons] at hnd
        exact hnd.2
      simp [lookupA, hk, ih hmem hnd']

end AssocList

/-- The scores of a game with `score > 0`: its valid scorers. -/
def validScores (g : MatchGame) : List MatchScore :=
  g.scores.filter (fun s => 0 < s.score)

/-- `score_sum`: the sum of all scores of the game (zero scores contribute
nothing, so this is also the sum among valid scorers). -/
def scoreSum (g : MatchGame) : ℕ := (g.scores.map MatchScore.score).sum

/-- The number of valid scorers of the game. -/
def nValid (g : MatchGame) : ℕ := (validScores g).length

/-- `avg`: the game's average score among valid scorers (the idealised
rational value of `score_sum as f32 / count as f32`; when the game has no
valid scorer the source value is `NaN` and is never read, here it is the
junk value `0/0 = 0`, equally never read). -/
def gameAvg (g : MatchGame) : ℚ := (scoreSum g : ℚ) / (nValid g : ℚ)

/-- `point_cost = score as f32 / avg + FLAT_PARTICIPATION_BONUS`. -/
def pointCost (g : MatchGame) (s : MatchScore) : ℚ :=
  (s.score : ℚ) / gameAvg g + FLAT_PARTICIPATION_BONUS

/-- The per-game `team_scores` map: summed score per team among valid
scorers, keyed in insertion order. -/
def teamScores (g : MatchGame) : List (Team × ℕ) :=
  (validScores g).foldl (fun m s => upsert s.team (· + s.score) s.score m) []

/-- `Iterator::max_by_key` over the team-scores entries: the maximum by
summed score, the *last* of several equal maxima winning (the fold replaces
the current maximum whenever the new score is greater or equal). -/
def maxByLast : List (Team × ℕ) → Option (Team × ℕ) :=
  List.foldl
    (fun acc x =>
      match acc with
      | Option.none => some x
      | some y => if y.2 ≤ x.2 then some x else some y)
    Option.none

/-- `team_scores.into_iter().max_by_key(...).unwrap_or((Team::None, 0)).0`. -/
def winnerTeam (g : MatchGame) : Team :=
  match maxByLast (teamScores g) with
  | Option.none => Team.none
  | some p => p.1

/-- `MatchScores`: won-game tallies of the blue and red team (`u8` fields in
the source, hence the saturation at 255 in `incr`). -/
structure MatchScores where
  blue : ℕ
  red : ℕ
deriving DecidableEq, Repr

/-- `MatchScores::incr`: `saturating_add(1)` on the winning team's tally;
`Team::None` increments neither. -/
def MatchScores.incr (ms : MatchScores) : Team → MatchScores
  | Team.blue => ⟨min (ms.blue + 1) 255, ms.red⟩
  | Team.red => ⟨ms.blue, min (ms.red + 1) 255⟩
  | Team.none => ms

/-- `MatchScores::difference`: absolute difference of the two tallies. -/
def MatchScores.difference (ms : MatchScores) : ℕ :=
  max ms.blue ms.red - min ms.blue ms.red

/-- State accumulated by the per-game collection loop of `process_match`:
the first-seen team per player, the point costs per player (in game order),
the set of used mod combinations per player (as an insertion-ordered list
without duplicates), and the running won-game tallies. -/
structure CollectState where
  teams : List (ℕ × Team)
  pointCosts : List (ℕ × List ℚ)
  modsMap : List (ℕ × List ℕ)
  matchScores : MatchScores
deriving DecidableEq, Repr

/-- Insert into a `HashSet` modelled as a duplicate-free list: append the
element unless it is already present. -/
def insertSet (m : ℕ) (l : List ℕ) : List ℕ :=
  if m ∈ l then l else l ++ [m]

/-- Point-cost pushes of one game:
`point_costs.entry(user_id).or_insert_with(Vec::new).push(point_cost)` for
each valid score. -/
def pcsGame (g : MatchGame) (pcs : List (ℕ × List ℚ)) : List (ℕ × List ℚ) :=
  (validScores g).foldl
    (fun m s => upsert s.user_id (· ++ [pointCost g s]) [pointCost g s] m) pcs

/-- Team registrations of one game: `teams.entry(user_id).or_insert(team)`
for each valid score (the first registration wins). -/
def teamsGame (g : MatchGame) (t : List (ℕ × Team)) : List (ℕ × Team) :=
  (validScores g).foldl (fun m s => upsert s.user_id id s.team m) t

/-- Mod-set insertions of one game:
`mods.entry(user_id).or_insert_with(HashSet::new).insert(mods - NoFail)` for
each valid score. -/
def modsGame (g : MatchGame) (mm : List (ℕ × List ℕ)) : List (ℕ × List ℕ) :=
  (validScores g).foldl
    (fun m s =>
      upsert s.user_id (insertSet (modsWithoutNF s.mods)) [modsWithoutNF s.mods] m)
    mm

/-- One iteration of the collection loop.  The source updates all four
accumulators inside a single loop over the game's valid scores; since each
update touches its own accumulator only, the loop is split here into one
fold per accumulator. -/
def processGame (st : CollectState) (g : MatchGame) : CollectState :=
  ⟨teamsGame g st.teams, pcsGame g st.pointCosts, modsGame g st.modsMap,
    st.matchScores.incr (winnerTeam g)⟩

/-- The whole collection pass of `process_match` over the games. -/
def collect (games : List MatchGame) : CollectState :=
  games.foldl processGame ⟨[], [], [], ⟨0, 0⟩⟩

/-- Replace the last element of a list (the `costs.last_mut().unwrap()`
write of the tiebreaker stage); fails on the empty list as the unwrap
would. -/
def updateLastQ (f : ℚ → ℚ) : List ℚ → Option (List ℚ)
  | [] => Option.none
  | [x] => some [f x]
  | x :: y :: t => (updateLastQ f (y :: t)).map (fun l => x :: l)

/-- Tiebreaker adjustment of one point-costs entry: when the player's id
appears anywhere in the last game's score list (the source does not require
`score > 0` here), the most recently appended point cost becomes
`value * TIEBREAKER_BONUS - FLAT_PARTICIPATION_BONUS`. -/
def tbAdjust (g : MatchGame) (e : ℕ × List ℚ) : Option (ℕ × List ℚ) :=
  if g.scores.any (fun s => s.user_id = e.1) then
    (updateLastQ (fun v => v * TIEBREAKER_BONUS - FLAT_PARTICIPATION_BONUS) e.2).map
      (fun l => (e.1, l))
  else some e

/-- Apply `tbAdjust` to every point-costs entry, propagating failure. -/
def tbMap (g : MatchGame) : List (ℕ × List ℚ) → Option (List (ℕ × List ℚ))
  | [] => some []
  | e :: t =>
    match tbAdjust g e, tbMap g t with
    | some e', some t' => some (e' :: t')
    | _, _ => Option.none

/-- The tiebreaker stage: applies exactly when the match is finished, there
are more than 2 games and the won-game tallies differ by exactly 1; the
last game (`games.last().unwrap()`) is the tiebreaker. -/
def tbStage (games : List MatchGame) (finished : Bool) (ms : MatchScores)
    (pcs : List (ℕ × List ℚ)) : Option (List (ℕ × List ℚ)) :=
  if finished ∧ 2 < games.length ∧ ms.difference = 1 then
    match games.getLast? with
    | Option.none => Option.none
    | some g => tbMap g pcs
  else some pcs

/-- The mod-combinations stage: for every player whose set of used mod
combinations has more than 2 elements, multiply each of their point costs by
`1.0 + (count - 2) * MOD_BONUS`. -/
def applyModBonus (mm : List (ℕ × List ℕ)) (pcs : List (ℕ × List ℚ)) :
    List (ℕ × List ℚ) :=
  mm.foldl
    (fun acc e =>
      if 2 < e.2.length then
        amodify e.1
          (List.map (fun c => c * (1 + ((e.2.length - 2 : ℕ) : ℚ) * MOD_BONUS))) acc
      else acc)
    pcs

/-- The point costs entering the final aggregation: the collected point
costs after the tiebreaker and mod-combination adjustments. -/
def finalPointCosts (games : List MatchGame) (finished : Bool) :
    Option (List (ℕ × List ℚ)) :=
  (tbStage games finished (collect games).matchScores (collect games).pointCosts).map
    (applyModBonus (collect games).modsMap)

/-- Per-player final match cost: the mean of the point costs, scaled by
`BASE_PARTICIPATION_BONUS.powf(exp.powf(EXP_PARTICIPATION_BONUS))`, where
the exponent is `0` for a single-game match and
`(costs_len - 1) / (games_len - 1)` otherwise. -/
noncomputable def matchCost (nGames : ℕ) (costs : List ℚ) : ℝ :=
  (((costs.sum / (costs.length : ℚ)) : ℚ) : ℝ) *
    BASE_PARTICIPATION_BONUS ^
      ((if nGames = 1 then (0 : ℝ)
        else ((((costs.length : ℚ) - 1) / ((nGames : ℚ) - 1) : ℚ) : ℝ)) ^
        EXP_PARTICIPATION_BONUS)

/-- State of the aggregation loop: per-team result vectors, the highest
match cost seen so far, and the MVP avatar reference recorded so far. -/
structure AggState where
  data : List (Team × List (ℕ × ℝ))
  highest : ℝ
  avatar : Option String

/-- One iteration of the aggregation loop: look the player's team up
(`teams.get(&user_id).unwrap()`), push `(user_id, match_cost)` onto that
team's vector, and on a strict improvement of the highest cost record the
player's avatar reference when the `users` lookup succeeds. -/
noncomputable def aggStep (users : List (ℕ × String)) (nGames : ℕ)
    (teams : List (ℕ × Team)) (st : AggState) (e : ℕ × List ℚ) :
    Option AggState :=
  match lookupA e.1 teams with
  | Option.none => Option.none
  | some team =>
    some
      ⟨upsert team (· ++ [(e.1, matchCost nGames e.2)])
          [(e.1, matchCost nGames e.2)] st.data,
        if st.highest < matchCost nGames e.2 then matchCost nGames e.2
        else st.highest,
        if st.highest < matchCost nGames e.2 then
          match lookupA e.1 users with
          | some url => some url
          | Option.none => st.avatar
        else st.avatar⟩

/-- The aggregation loop over all point-costs entries. -/
noncomputable def aggFold (users : List (ℕ × String)) (nGames : ℕ)
    (teams : List (ℕ × Team)) :
    AggState → List (ℕ × List ℚ) → Option AggState
  | st, [] => some st
  | st, e :: t =>
    match aggStep users nGames teams st e with
    | Option.none => Option.none
    | some st' => aggFold users nGames teams st' t

/-- Insert into a list that is sorted non-ascending by match cost, after all
elements with a greater or equal cost. -/
noncomputable def insertDesc (x : ℕ × ℝ) : List (ℕ × ℝ) → List (ℕ × ℝ)
  | [] => [x]
  | y :: t => if x.2 ≤ y.2 then y :: insertDesc x t else x :: y :: t

/-- The `sort!` macro of the source: sort a team's result vector so that
match costs are non-ascending. -/
noncomputable def sortDesc : List (ℕ × ℝ) → List (ℕ × ℝ)
  | [] => []
  | x :: t => insertDesc x (sortDesc t)

/-- `MatchResult`: per-team sorted result vectors for a team-vs match, or a
single vector for a head-to-head match, plus the MVP avatar reference. -/
inductive MatchResult where
  | teamVS (blue : List (ℕ × ℝ)) (red : List (ℕ × ℝ))
      (mvp_avatar_url : String) (match_scores : MatchScores)
  | headToHead (players : List (ℕ × ℝ)) (mvp_avatar_url : String)

/-- All player entries of a match result (blue then red for a team-vs
match). -/
def MatchResult.resultLists : MatchResult → List (ℕ × ℝ)
  | MatchResult.teamVS b r _ _ => b ++ r
  | MatchResult.headToHead p _ => p

/-- The MVP avatar reference of a match result. -/
def MatchResult.mvpUrl : MatchResult → String
  | MatchResult.teamVS _ _ u _ => u
  | MatchResult.headToHead _ u => u

/-- `process_match`: the full pipeline.  `Option.none` marks the panics of
the source (`games[0]` on an empty slice and the `.unwrap()` calls). -/
noncomputable def process_match (games : List MatchGame) (finished : Bool)
    (users : List (ℕ × String)) : Option MatchResult :=
  match games with
  | [] => Option.none
  | g0 :: _ =>
    match finalPointCosts games finished with
    | Option.none => Option.none
    | some pcs =>
      match aggFold users games.length (collect games).teams ⟨[], 0, Option.none⟩ pcs with
      | Option.none => Option.none
      | some agg =>
        if g0.teamVS then
          some
            (MatchResult.teamVS
              (match lookupA Team.blue agg.data with
                | some l => sortDesc l
                | Option.none => [])
              (match lookupA Team.red agg.data with
                | some l => sortDesc l
                | Option.none => [])
              (agg.avatar.getD "")
              (collect games).matchScores)
        else
          some
            (MatchResult.headToHead
              (sortDesc ((lookupA Team.none agg.data).getD []))
              (agg.avatar.getD ""))

/-! ### Direct (per-game) characterisations of the collection pass -/

/-- The point costs one game appends for one player: one cost per valid
score of that player, in score-list order. -/
def gameCosts (g : MatchGame) (uid : ℕ) : List ℚ :=
  (((validScores g).filter (fun s => s.user_id = uid)).map (pointCost g))

/-- All point costs the collection pass appends for one player, in game
order. -/
def directCosts : List MatchGame → ℕ → List ℚ
  | [], _ => []
  | g :: gs, uid => gameCosts g uid ++ directCosts gs uid

/-- The mod combinations (NoFail removed) of one player's valid scores, in
order of appearance. -/
def directMods : List MatchGame → ℕ → List ℕ
  | [], _ => []
  | g :: gs, uid =>
    ((validScores g).filter (fun s => s.user_id = uid)).map
        (fun s => modsWithoutNF s.mods) ++
      directMods gs uid

/-- The team of the first valid score of one player across the games. -/
def directTeam : List MatchGame → ℕ → Option Team
  | [], _ => Option.none
  | g :: gs, uid =>
    match (validScores g).find? (fun s => s.user_id = uid) with
    | some s => some s.team
    | Option.none => directTeam gs uid

theorem lookupA_pcsGame (g : MatchGame) (pcs : List (ℕ × List ℚ)) (uid : ℕ) :
    (lookupA uid (pcsGame g pcs)).getD [] =
      (lookupA uid pcs).getD [] ++ gameCosts g uid := by
  unfold pcsGame gameCosts
  generalize validScores g = ss
  induction ss generalizing pcs with
  | nil => simp
  | cons s t ih =>
    simp only [List.foldl_cons, List.filter_cons]
    by_cases h : s.user_id = uid
    · subst h
      rw [ih, lookupA_upsert_self]
      cases hv : lookupA s.user_id pcs with
      | none => simp
      | some v => simp
    · rw [ih, lookupA_upsert_ne _ _ _ _ _ (Ne.symm h)]
      simp [h]

theorem lookupA_modsGame (g : MatchGame) (mm : List (ℕ × List ℕ)) (uid : ℕ) :
    (lookupA uid (modsGame g mm)).getD [] =
      (((validScores g).filter (fun s => s.user_id = uid)).map
          (fun s => modsWithoutNF s.mods)).foldl
        (fun acc m => insertSet m acc) ((lookupA uid mm).getD []) := by
  unfold modsGame
  generalize validScores g = ss
  induction ss generalizing mm with
  | nil => simp
  | cons s t ih =>
    simp only [List.foldl_cons, List.filter_cons]
    by_cases h : s.user_id = uid
    · subst h
      rw [ih, lookupA_upsert_self]
      cases hv : lookupA s.user_id mm with
      | none => simp [insertSet]
      | some v => simp
    · rw [ih, lookupA_upsert_ne _ _ _ _ _ (Ne.symm h)]
      simp [h]

theorem lookupA_teamsGame (g : MatchGame) (tm : List (ℕ × Team)) (uid : ℕ) :
    lookupA uid (teamsGame g tm) =
      match lookupA uid tm with
      | some t => some t
      | Option.none =>
        ((validScores g).find? (fun s => s.user_id = uid)).map MatchScore.team := by
  unfold teamsGame
  generalize validScores g = ss
  induction ss generalizing tm with
  | nil => cases h : lookupA uid tm <;> simp [h]
  | cons s t ih =>
    simp only [List.foldl_cons]
    by_cases h : s.user_id = uid
    · subst h
      rw [ih, lookupA_upsert_self]
      cases hv : lookupA s.user_id tm with
      | none => simp [List.find?]
      | some v => simp
    · rw [ih, lookupA_upsert_ne _ _ _ _ _ (Ne.symm h)]
      cases hv : lookupA uid tm with
      | none => simp [List.find?, h]
      | some v => simp

section Keys

variable {κ : Type} {α : Type} {β : Type} [DecidableEq κ]

/-- Keys accumulated by a sequence of upserts: existing keys stay in place,
new keys are appended in first-appearance order. -/
def keyAcc : List κ → List κ → List κ
  | ks, [] => ks
  | ks, k :: t => keyAcc (if k ∈ ks then ks else ks ++ [k]) t

theorem keysA_upsertFold (key : β → κ) (f : β → α → α) (v : β → α)
    (l : List β) (m0 : List (κ × α)) :
    keysA (l.foldl (fun m b => upsert (key b) (f b) (v b) m) m0) =
      keyAcc (keysA m0) (l.map key) := by
  induction l generalizing m0 with
  | nil => rfl
  | cons b t ih =>
    simp only [List.foldl_cons, List.map_cons, keyAcc]
    rw [ih, keysA_upsert]

theorem mem_keyAcc (ks l : List κ) (k : κ) :
    k ∈ keyAcc ks l ↔ k ∈ ks ∨ k ∈ l := by
  induction l generalizing ks with
  | nil => simp [keyAcc]
  | cons a t ih =>
    rw [keyAcc, ih]
    by_cases h : a ∈ ks
    · rw [if_pos h]
      constructor
      · intro hc
        rcases hc with hc | hc
        · exact Or.inl hc
        · exact Or.inr (List.mem_cons_of_mem a hc)
      · intro hc
        rcases hc with hc | hc
        · exact Or.inl hc
        · rcases List.mem_cons.mp hc with hc | hc
          · exact Or.inl (hc ▸ h)
          · exact Or.inr hc
    · rw [if_neg h]
      simp only [List.mem_append, List.mem_cons, List.not_mem_nil, or_false]
      tauto

theorem keyAcc_nodup (ks l : List κ) (h : ks.Nodup) : (keyAcc ks l).Nodup := by
  induction l generalizing ks with
  | nil => exact h
  | cons a t ih =>
    rw [keyAcc]
    by_cases hm : a ∈ ks
    · rw [if_pos hm]
      exact ih ks h
    · rw [if_neg hm]
      refine ih _ ?_
      rw [List.nodup_append_comm]
      simpa [List.nodup_cons] using ⟨hm, h⟩

end Keys

theorem mem_validScores (g : MatchGame) (s : MatchScore) :
    s ∈ validScores g ↔ s ∈ g.scores ∧ 0 < s.score := by
  simp [validScores, List.mem_filter]

theorem foldPG_pcs (games : List MatchGame) (st : CollectState) (uid : ℕ) :
    (lookupA uid (games.foldl processGame st).pointCosts).getD [] =
      (lookupA uid st.pointCosts).getD [] ++ directCosts games uid := by
  induction games generalizing st with
  | nil => simp [directCosts]
  | cons g gs ih =>
    simp only [List.foldl_cons, directCosts]
    rw [ih]
    rw [show (processGame st g).pointCosts = pcsGame g st.pointCosts from rfl]
    rw [lookupA_pcsGame, List.append_assoc]

theorem collect_pcs_getD (games : List MatchGame) (uid : ℕ) :
    (lookupA uid (collect games).pointCosts).getD [] = directCosts games uid := by
  have h := foldPG_pcs games ⟨[], [], [], ⟨0, 0⟩⟩ uid
  simpa [collect] using h

theorem foldPG_mods (games : List MatchGame) (st : CollectState) (uid : ℕ) :
    (lookupA uid (games.foldl processGame st).modsMap).getD [] =
      (directMods games uid).foldl (fun acc m => insertSet m acc)
        ((lookupA uid st.modsMap).getD []) := by
  induction games generalizing st with
  | nil => simp [directMods]
  | cons g gs ih =>
    simp only [List.foldl_cons, directMods]
    rw [ih]
    rw [show (processGame st g).modsMap = modsGame g st.modsMap from rfl]
    rw [lookupA_modsGame, List.foldl_append]

theorem collect_mods_getD (games : List MatchGame) (uid : ℕ) :
    (lookupA uid (collect games).modsMap).getD [] =
      (directMods games uid).foldl (fun acc m => insertSet m acc) [] := by
  have h := foldPG_mods games ⟨[], [], [], ⟨0, 0⟩⟩ uid
  simpa [collect] using h

theorem foldPG_teams (games : List MatchGame) (st : CollectState) (uid : ℕ) :
    lookupA uid (games.foldl processGame st).teams =
      match lookupA uid st.teams with
      | some t => some t
      | Option.none => directTeam games uid := by
  induction games generalizing st with
  | nil => cases h : lookupA uid st.teams <;> simp [directTeam, h]
  | cons g gs ih =>
    simp only [List.foldl_cons]
    rw [ih]
    rw [show (processGame st g).teams = teamsGame g st.teams from rfl]
    rw [lookupA_teamsGame]
    cases h : lookupA uid st.teams with
    | some t => simp
    | none =>
      cases hf : (validScores g).find? (fun s => s.user_id = uid) with
      | some s => simp [directTeam, hf]
      | none => simp [directTeam, hf]

theorem collect_teams_lookup (games : List MatchGame) (uid : ℕ) :
    lookupA uid (collect games).teams = directTeam games uid := by
  have h := foldPG_teams games ⟨[], [], [], ⟨0, 0⟩⟩ uid
  simpa [collect] using h

theorem foldPG_matchScores (games : List MatchGame) (st : CollectState) :
    (games.foldl processGame st).matchScores =
      games.foldl (fun ms g => ms.incr (winnerTeam g)) st.matchScores := by
  induction games generalizing st with
  | nil => rfl
  | cons g gs ih =>
    simp only [List.foldl_cons]
    rw [ih]
    rfl

theorem keysA_pcsGame (g : MatchGame) (pcs : List (ℕ × List ℚ)) :
    keysA (pcsGame g pcs) =
      keyAcc (keysA pcs) ((validScores g).map MatchScore.user_id) :=
  keysA_upsertFold MatchScore.user_id (fun s l => l ++ [pointCost g s])
    (fun s => [pointCost g s]) (validScores g) pcs

theorem keysA_teamsGame (g : MatchGame) (tm : List (ℕ × Team)) :
    keysA (teamsGame g tm) =
      keyAcc (keysA tm) ((validScores g).map MatchScore.user_id) :=
  keysA_upsertFold MatchScore.user_id (fun _ => id) MatchScore.team
    (validScores g) tm

theorem keysA_modsGame (g : MatchGame) (mm : List (ℕ × List ℕ)) :
    keysA (modsGame g mm) =
      keyAcc (keysA mm) ((validScores g).map MatchScore.user_id) :=
  keysA_upsertFold MatchScore.user_id (fun s => insertSet (modsWithoutNF s.mods))
    (fun s => [modsWithoutNF s.mods]) (validScores g) mm

theorem foldPG_keys (games : List MatchGame) : ∀ st : CollectState,
    keysA st.teams = keysA st.pointCosts →
    keysA st.modsMap = keysA st.pointCosts →
    (keysA st.pointCosts).Nodup →
    keysA (games.foldl processGame st).teams =
        keysA (games.foldl processGame st).pointCosts ∧
      keysA (games.foldl processGame st).modsMap =
        keysA (games.foldl processGame st).pointCosts ∧
      (keysA (games.foldl processGame st).pointCosts).Nodup := by
  induction games with
  | nil => exact fun st h1 h2 h3 => ⟨h1, h2, h3⟩
  | cons g gs ih =>
    intro st h1 h2 h3
    simp only [List.foldl_cons]
    refine ih (processGame st g) ?_ ?_ ?_
    · rw [show (processGame st g).teams = teamsGame g st.teams from rfl,
        keysA_teamsGame,
        show (processGame st g).pointCosts = pcsGame g st.pointCosts from rfl,
        keysA_pcsGame, h1]
    · rw [show (processGame st g).modsMap = modsGame g st.modsMap from rfl,
        keysA_modsGame,
        show (processGame st g).pointCosts = pcsGame g st.pointCosts from rfl,
        keysA_pcsGame, h2]
    · rw [show (processGame st g).pointCosts = pcsGame g st.pointCosts from rfl,
        keysA_pcsGame]
      exact keyAcc_nodup _ _ h3

theorem collect_keys (games : List MatchGame) :
    keysA (collect games).teams = keysA (collect games).pointCosts ∧
      keysA (collect games).modsMap = keysA (collect games).pointCosts ∧
      (keysA (collect games).pointCosts).Nodup :=
  foldPG_keys games ⟨[], [], [], ⟨0, 0⟩⟩ rfl rfl List.nodup_nil

theorem foldPG_keys_mem (games : List MatchGame) :
    ∀ (st : CollectState) (uid : ℕ),
      uid ∈ keysA (games.foldl processGame st).pointCosts ↔
        uid ∈ keysA st.pointCosts ∨
          ∃ g ∈ games, ∃ s ∈ validScores g, s.user_id = uid := by
  induction games with
  | nil => simp
  | cons g gs ih =>
    intro st uid
    simp only [List.foldl_cons]
    rw [ih]
    rw [show (processGame st g).pointCosts = pcsGame g st.pointCosts from rfl,
      keysA_pcsGame]
    rw [mem_keyAcc]
    simp only [List.mem_map, List.exists_mem_cons_iff]
    aesop

theorem collect_pcs_mem (games : List MatchGame) (uid : ℕ) :
    uid ∈ keysA (collect games).pointCosts ↔
      ∃ g ∈ games, ∃ s ∈ validScores g, s.user_id = uid := by
  have h := foldPG_keys_mem games ⟨[], [], [], ⟨0, 0⟩⟩ uid
  simpa [collect, keysA] using h

theorem directCosts_eq_nil_iff (games : List MatchGame) (uid : ℕ) :
    directCosts games uid = [] ↔
      ∀ g ∈ games, ∀ s ∈ validScores g, s.user_id ≠ uid := by
  induction games with
  | nil => simp [directCosts]
  | cons g gs ih =>
    simp only [directCosts, List.append_eq_nil, gameCosts, List.map_eq_nil_iff,
      List.filter_eq_nil_iff, ih, List.forall_mem_cons]
    simp

/-! ### Tiebreaker stage -/

/-- Total version of the last-element replacement (used to describe
`updateLastQ` on non-empty lists). -/
def updLast (f : ℚ → ℚ) (l : List ℚ) : List ℚ :=
  l.dropLast ++ (l.getLast?.map f).toList

theorem updateLastQ_eq (f : ℚ → ℚ) (l : List ℚ) (h : l ≠ []) :
    updateLastQ f l = some (updLast f l) := by
  induction l with
  | nil => exact absurd rfl h
  | cons x t ih =>
    cases t with
    | nil => simp [updateLastQ, updLast]
    | cons y u =>
      have ih' := ih (by simp)
      rw [show updateLastQ f (x :: y :: u) =
        (updateLastQ f (y :: u)).map (fun l => x :: l) from rfl]
      rw [ih']
      simp [updLast]

theorem updLast_length (f : ℚ → ℚ) (l : List ℚ) (h : l ≠ []) :
    (updLast f l).length = l.length := by
  cases hl : l.getLast? with
  | none => exact absurd (List.getLast?_eq_none_iff.mp hl) h
  | some a =>
    have hpos : 0 < l.length := List.length_pos.mpr h
    simp [updLast, hl, List.length_dropLast]
    omega

theorem mem_of_getLast?_eq_some {α : Type} {l : List α} {a : α}
    (hl : l.getLast? = some a) : a ∈ l := by
  have hmem : a ∈ l.getLast? := Option.mem_def.mpr hl
  obtain ⟨hne, heq⟩ := List.mem_getLast?_eq_getLast hmem
  exact heq ▸ List.getLast_mem hne

theorem updLast_mem (f : ℚ → ℚ) (l : List ℚ) (x : ℚ) (hx : x ∈ updLast f l) :
    x ∈ l ∨ ∃ y ∈ l, x = f y := by
  simp only [updLast, List.mem_append] at hx
  rcases hx with hx | hx
  · exact Or.inl (List.dropLast_subset l hx)
  · cases hl : l.getLast? with
    | none => simp [hl] at hx
    | some a =>
      rw [hl] at hx
      simp at hx
      exact Or.inr ⟨a, mem_of_getLast?_eq_some hl, hx⟩

theorem tbMap_eq (g : MatchGame) (pcs : List (ℕ × List ℚ))
    (h : ∀ e ∈ pcs, e.2 ≠ []) :
    tbMap g pcs = some (pcs.map (fun e =>
      if g.scores.any (fun s => s.user_id = e.1) then
        (e.1, updLast (fun v => v * TIEBREAKER_BONUS - FLAT_PARTICIPATION_BONUS) e.2)
      else e)) := by
  induction pcs with
  | nil => simp [tbMap]
  | cons e t ih =>
    have he := h e (List.mem_cons_self e t)
    have ht := fun x hx => h x (List.mem_cons_of_mem e hx)
    simp only [tbMap, List.map_cons]
    rw [ih ht]
    unfold tbAdjust
    by_cases hc : (g.scores.any (fun s => s.user_id = e.1)) = true
    · rw [if_pos hc, updateLastQ_eq _ _ he]
      simp [hc]
    · rw [if_neg hc]
      simp [hc]

theorem tbStage_skip (games : List MatchGame) (finished : Bool) (ms : MatchScores)
    (pcs : List (ℕ × List ℚ))
    (h : ¬ (finished ∧ 2 < games.length ∧ ms.difference = 1)) :
    tbStage games finished ms pcs = some pcs := by
  unfold tbStage
  rw [if_neg h]

theorem tbStage_spec (games : List MatchGame) (finished : Bool) (ms : MatchScores)
    (pcs : List (ℕ × List ℚ)) (h : ∀ e ∈ pcs, e.2 ≠ []) :
    ∃ pcs', tbStage games finished ms pcs = some pcs' ∧ keysA pcs' = keysA pcs ∧
      ∀ e' ∈ pcs', ∃ e ∈ pcs, e'.1 = e.1 ∧ e'.2.length = e.2.length ∧
        ∀ x ∈ e'.2, x ∈ e.2 ∨
          ∃ y ∈ e.2, x = y * TIEBREAKER_BONUS - FLAT_PARTICIPATION_BONUS := by
  by_cases hc : finished ∧ 2 < games.length ∧ ms.difference = 1
  · unfold tbStage
    rw [if_pos hc]
    cases hg : games.getLast? with
    | none =>
      have : games = [] := List.getLast?_eq_none_iff.mp hg
      rw [this] at hc
      simp at hc
    | some g =>
      refine ⟨_, tbMap_eq g pcs h, ?_, ?_⟩
      · simp only [keysA, List.map_map]
        apply List.map_congr_left
        intro e _
        simp only [Function.comp_apply]
        split
        · rfl
        · rfl
      · intro e' he'
        obtain ⟨e, hmem, heq⟩ := List.mem_map.mp he'
        by_cases hb : (g.scores.any (fun s => s.user_id = e.1)) = true
        · rw [if_pos hb] at heq
          refine ⟨e, hmem, ?_, ?_, ?_⟩
          · rw [← heq]
          · rw [← heq]
            exact updLast_length _ _ (h e hmem)
          · intro x hx
            rw [← heq] at hx
            exact updLast_mem _ _ _ hx
        · rw [if_neg hb] at heq
          subst heq
          exact ⟨e, hmem, rfl, rfl, fun x hx => Or.inl hx⟩
  · exact ⟨pcs, tbStage_skip games finished ms pcs hc, rfl,
      fun e' he' => ⟨e', he', rfl, rfl, fun x hx => Or.inl hx⟩⟩

/-! ### Mod-combinations stage -/

theorem applyModBonus_keys (mm : List (ℕ × List ℕ)) (pcs : List (ℕ × List ℚ)) :
    keysA (applyModBonus mm pcs) = keysA pcs := by
  unfold applyModBonus
  induction mm generalizing pcs with
  | nil => rfl
  | cons e t ih =>
    simp only [List.foldl_cons]
    rw [ih]
    by_cases h : 2 < e.2.length
    · rw [if_pos h, keysA_amodify]
    · rw [if_neg h]

theorem lookupA_applyModBonus (mm : List (ℕ × List ℕ)) (pcs : List (ℕ × List ℚ))
    (uid : ℕ) (hnd : (keysA mm).Nodup) :
    lookupA uid (applyModBonus mm pcs) =
      match lookupA uid mm with
      | some ms =>
        if 2 < ms.length then
          (lookupA uid pcs).map
            (List.map (fun c => c * (1 + ((ms.length - 2 : ℕ) : ℚ) * MOD_BONUS)))
        else lookupA uid pcs
      | Option.none => lookupA uid pcs := by
  induction mm generalizing pcs with
  | nil => simp [applyModBonus]
  | cons e t ih =>
    obtain ⟨k, ms⟩ := e
    have hnd1 : k ∉ keysA t := by
      simp only [keysA, List.map_cons, List.nodup_cons] at hnd
      exact hnd.1
    have hndt : (keysA t).Nodup := by
      simp only [keysA, List.map_cons, List.nodup_cons] at hnd
      exact hnd.2
    have hstep : applyModBonus ((k, ms) :: t) pcs =
        applyModBonus t
          (if 2 < ms.length then
            amodify k
              (List.map (fun c => c * (1 + ((ms.length - 2 : ℕ) : ℚ) * MOD_BONUS))) pcs
          else pcs) := rfl
    rw [hstep, ih _ hndt]
    by_cases he : uid = k
    · rw [he]
      have ht : lookupA k t = (Option.none : Option (List ℕ)) :=
        (lookupA_eq_none_iff k t).mpr hnd1
      rw [ht]
      rw [show lookupA k ((k, ms) :: t) = some ms by simp [lookupA]]
      by_cases hl : 2 < ms.length
      · simp only [hl, if_true, lookupA_amodify_self]
      · simp only [hl, if_false]
    · rw [show lookupA uid ((k, ms) :: t) = lookupA uid t by
        simp [lookupA, Ne.symm he]]
      by_cases hl : 2 < ms.length
      · rw [if_pos hl, lookupA_amodify_ne _ _ _ _ he]
      · rw [if_neg hl]

/-! ### Sorting -/

theorem insertDesc_perm (x : ℕ × ℝ) (l : List (ℕ × ℝ)) :
    (insertDesc x l).Perm (x :: l) := by
  induction l with
  | nil => exact List.Perm.refl _
  | cons y t ih =>
    unfold insertDesc
    by_cases h : x.2 ≤ y.2
    · rw [if_pos h]
      exact (ih.cons y).trans (List.Perm.swap x y t)
    · rw [if_neg h]

theorem sortDesc_perm (l : List (ℕ × ℝ)) : (sortDesc l).Perm l := by
  induction l with
  | nil => exact List.Perm.refl _
  | cons x t ih =>
    unfold sortDesc
    exact (insertDesc_perm x (sortDesc t)).trans (ih.cons x)

theorem mem_sortDesc (l : List (ℕ × ℝ)) (p : ℕ × ℝ) :
    p ∈ sortDesc l ↔ p ∈ l :=
  (sortDesc_perm l).mem_iff

/-! ### Aggregation stage -/

theorem aggStep_some (users : List (ℕ × String)) (n : ℕ) (teams : List (ℕ × Team))
    (st : AggState) (e : ℕ × List ℚ) (tm : Team)
    (h : lookupA e.1 teams = some tm) :
    aggStep users n teams st e = some
      ⟨upsert tm (· ++ [(e.1, matchCost n e.2)]) [(e.1, matchCost n e.2)] st.data,
        if st.highest < matchCost n e.2 then matchCost n e.2 else st.highest,
        if st.highest < matchCost n e.2 then
          match lookupA e.1 users with
          | some url => some url
          | Option.none => st.avatar
        else st.avatar⟩ := by
  unfold aggStep
  rw [h]

theorem aggStep_none (users : List (ℕ × String)) (n : ℕ) (teams : List (ℕ × Team))
    (st : AggState) (e : ℕ × List ℚ) (h : lookupA e.1 teams = Option.none) :
    aggStep users n teams st e = Option.none := by
  unfold aggStep
  rw [h]

theorem aggFold_total (users : List (ℕ × String)) (n : ℕ) (teams : List (ℕ × Team))
    (pcs : List (ℕ × List ℚ)) :
    ∀ st : AggState, (∀ e ∈ pcs, e.1 ∈ keysA teams) →
      ∃ agg, aggFold users n teams st pcs = some agg := by
  induction pcs with
  | nil => exact fun st _ => ⟨st, rfl⟩
  | cons e t ih =>
    intro st h
    obtain ⟨tm, htm⟩ :=
      lookupA_isSome_of_mem_keys e.1 teams (h e (List.mem_cons_self e t))
    simp only [aggFold]
    rw [aggStep_some users n teams st e tm htm]
    exact ih _ (fun x hx => h x (List.mem_cons_of_mem e hx))

theorem aggFold_data_inv (users : List (ℕ × String)) (n : ℕ)
    (teams : List (ℕ × Team)) (P : ℕ × ℝ → Prop) (pcs : List (ℕ × List ℚ)) :
    ∀ st agg : AggState, aggFold users n teams st pcs = some agg →
      (∀ t l, lookupA t st.data = some l → ∀ p ∈ l, P p) →
      (∀ e ∈ pcs, P (e.1, matchCost n e.2)) →
      ∀ t l, lookupA t agg.data = some l → ∀ p ∈ l, P p := by
  induction pcs with
  | nil =>
    intro st agg h hst _
    simp only [aggFold] at h
    obtain rfl := Option.some.inj h
    exact hst
  | cons e t ih =>
    intro st agg h hst hpcs
    simp only [aggFold] at h
    cases hteam : lookupA e.1 teams with
    | none =>
      rw [aggStep_none users n teams st e hteam] at h
      exact Option.noConfusion h
    | some tm =>
      rw [aggStep_some users n teams st e tm hteam] at h
      refine ih _ agg h ?_ (fun x hx => hpcs x (List.mem_cons_of_mem e hx))
      intro tt l hl p hp
      have hl' : lookupA tt (upsert tm (· ++ [(e.1, matchCost n e.2)])
          [(e.1, matchCost n e.2)] st.data) = some l := hl
      by_cases htt : tt = tm
      · subst htt
        rw [lookupA_upsert_self] at hl'
        cases hold : lookupA tt st.data with
        | none =>
          simp only [hold, Option.some.injEq] at hl'
          rw [← hl'] at hp
          rcases List.mem_singleton.mp hp with rfl
          exact hpcs e (List.mem_cons_self e t)
        | some v =>
          simp only [hold, Option.some.injEq] at hl'
          rw [← hl'] at hp
          rcases List.mem_append.mp hp with hp | hp
          · exact hst tt v hold p hp
          · rcases List.mem_singleton.mp hp with rfl
            exact hpcs e (List.mem_cons_self e t)
      · rw [lookupA_upsert_ne _ _ _ _ _ htt] at hl'
        exact hst tt l hl' p hp

theorem aggFold_highest_mono (users : List (ℕ × String)) (n : ℕ)
    (teams : List (ℕ × Team)) (pcs : List (ℕ × List ℚ)) :
    ∀ st agg : AggState, aggFold users n teams st pcs = some agg →
      st.highest ≤ agg.highest := by
  induction pcs with
  | nil =>
    intro st agg h
    simp only [aggFold] at h
    obtain rfl := Option.some.inj h
    exact le_refl _
  | cons e t ih =>
    intro st agg h
    simp only [aggFold] at h
    cases hteam : lookupA e.1 teams with
    | none =>
      rw [aggStep_none users n teams st e hteam] at h
      exact Option.noConfusion h
    | some tm =>
      rw [aggStep_some users n teams st e tm hteam] at h
      refine le_trans ?_ (ih _ agg h)
      show st.highest ≤
        if st.highest < matchCost n e.2 then matchCost n e.2 else st.highest
      by_cases hlt : st.highest < matchCost n e.2
      · rw [if_pos hlt]
        exact le_of_lt hlt
      · rw [if_neg hlt]

theorem aggFold_bound (users : List (ℕ × String)) (n : ℕ)
    (teams : List (ℕ × Team)) (pcs : List (ℕ × List ℚ)) :
    ∀ st agg : AggState, aggFold users n teams st pcs = some agg →
      (∀ t l, lookupA t st.data = some l → ∀ p ∈ l, p.2 ≤ st.highest) →
      ∀ t l, lookupA t agg.data = some l → ∀ p ∈ l, p.2 ≤ agg.highest := by
  induction pcs with
  | nil =>
    intro st agg h hst
    simp only [aggFold] at h
    obtain rfl := Option.some.inj h
    exact hst
  | cons e t ih =>
    intro st agg h hst
    simp only [aggFold] at h
    cases hteam : lookupA e.1 teams with
    | none =>
      rw [aggStep_none users n teams st e hteam] at h
      exact Option.noConfusion h
    | some tm =>
      rw [aggStep_some users n teams st e tm hteam] at h
      refine ih _ agg h ?_
      intro tt l hl p hp
      have hl' : lookupA tt (upsert tm (· ++ [(e.1, matchCost n e.2)])
          [(e.1, matchCost n e.2)] st.data) = some l := hl
      have hmono : st.highest ≤
          (if st.highest < matchCost n e.2 then matchCost n e.2 else st.highest) := by
        by_cases hlt : st.highest < matchCost n e.2
        · rw [if_pos hlt]
          exact le_of_lt hlt
        · rw [if_neg hlt]
      have hmc : matchCost n e.2 ≤
          (if st.highest < matchCost n e.2 then matchCost n e.2 else st.highest) := by
        by_cases hlt : st.highest < matchCost n e.2
        · rw [if_pos hlt]
        · rw [if_neg hlt]
          exact le_of_not_lt hlt
      by_cases htt : tt = tm
      · subst htt
        rw [lookupA_upsert_self] at hl'
        cases hold : lookupA tt st.data with
        | none =>
          simp only [hold, Option.some.injEq] at hl'
          rw [← hl'] at hp
          rcases List.mem_singleton.mp hp with rfl
          exact hmc
        | some v =>
          simp only [hold, Option.some.injEq] at hl'
          rw [← hl'] at hp
          rcases List.mem_append.mp hp with hp | hp
          · exact le_trans (hst tt v hold p hp) hmono
          · rcases List.mem_singleton.mp hp with rfl
            exact hmc
      · rw [lookupA_upsert_ne _ _ _ _ _ htt] at hl'
        exact le_trans (hst tt l hl' p hp) hmono

theorem aggFold_achieved (users : List (ℕ × String)) (n : ℕ)
    (teams : List (ℕ × Team)) (pcs : List (ℕ × List ℚ)) :
    ∀ st agg : AggState, aggFold users n teams st pcs = some agg →
      (st.highest = 0 ∨
        ∃ t l p, lookupA t st.data = some l ∧ p ∈ l ∧ p.2 = st.highest) →
      agg.highest = 0 ∨
        ∃ t l p, lookupA t agg.data = some l ∧ p ∈ l ∧ p.2 = agg.highest := by
  induction pcs with
  | nil =>
    intro st agg h hst
    simp only [aggFold] at h
    obtain rfl := Option.some.inj h
    exact hst
  | cons e t ih =>
    intro st agg h hst
    simp only [aggFold] at h
    cases hteam : lookupA e.1 teams with
    | none =>
      rw [aggStep_none users n teams st e hteam] at h
      exact Option.noConfusion h
    | some tm =>
      rw [aggStep_some users n teams st e tm hteam] at h
      refine ih _ agg h ?_
      by_cases hlt : st.highest < matchCost n e.2
      · right
        refine ⟨tm, _, (e.1, matchCost n e.2), lookupA_upsert_self tm _ _ st.data, ?_, ?_⟩
        · cases hold : lookupA tm st.data with
          | none => simp [hold]
          | some v => simp [hold]
        · show matchCost n e.2 =
            if st.highest < matchCost n e.2 then matchCost n e.2 else st.highest
          rw [if_pos hlt]
      · rcases hst with hst0 | ⟨tt, l, p, hlook, hmem, hval⟩
        · left
          show (if st.highest < matchCost n e.2 then matchCost n e.2 else st.highest) = 0
          rw [if_neg hlt]
          exact hst0
        · right
          by_cases htt : tt = tm
          · subst htt
            refine ⟨tt, _, p, lookupA_upsert_self tt _ _ st.data, ?_, ?_⟩
            · cases hold : lookupA tt st.data with
              | none => exact absurd hlook (by simp [hold])
              | some v =>
                rw [hold] at hlook
                obtain rfl := Option.some.inj hlook
                simp only [hold]
                exact List.mem_append.mpr (Or.inl hmem)
            · show p.2 =
                if st.highest < matchCost n e.2 then matchCost n e.2 else st.highest
              rw [if_neg hlt, hval]
          · refine ⟨tt, l, p, ?_, hmem, ?_⟩
            · show lookupA tt (upsert tm (· ++ [(e.1, matchCost n e.2)])
                  [(e.1, matchCost n e.2)] st.data) = some l
              rw [lookupA_upsert_ne _ _ _ _ _ htt]
              exact hlook
            · show p.2 =
                if st.highest < matchCost n e.2 then matchCost n e.2 else st.highest
              rw [if_neg hlt, hval]

theorem aggFold_noimprove (users : List (ℕ × String)) (n : ℕ)
    (teams : List (ℕ × Team)) (pcs : List (ℕ × List ℚ)) :
    ∀ st agg : AggState, aggFold users n teams st pcs = some agg →
      (∀ e ∈ pcs, matchCost n e.2 ≤ st.highest) →
      agg.highest = st.highest ∧ agg.avatar = st.avatar := by
  induction pcs with
  | nil =>
    intro st agg h _
    simp only [aggFold] at h
    obtain rfl := Option.some.inj h
    exact ⟨rfl, rfl⟩
  | cons e t ih =>
    intro st agg h hle
    simp only [aggFold] at h
    cases hteam : lookupA e.1 teams with
    | none =>
      rw [aggStep_none users n teams st e hteam] at h
      exact Option.noConfusion h
    | some tm =>
      rw [aggStep_some users n teams st e tm hteam] at h
      have hnlt : ¬ st.highest < matchCost n e.2 :=
        not_lt_of_le (hle e (List.mem_cons_self e t))
      have hstep := ih _ agg h
      rw [if_neg hnlt, if_neg hnlt] at hstep
      exact hstep (fun x hx => hle x (List.mem_cons_of_mem e hx))

/-! ### Whole-pipeline helpers -/

theorem collect_pcs_entry_ne_nil (games : List MatchGame) (uid : ℕ) (l : List ℚ)
    (h : lookupA uid (collect games).pointCosts = some l) : l ≠ [] := by
  have hd : l = directCosts games uid := by
    have := collect_pcs_getD games uid
    rw [h] at this
    exact this
  have hmem := mem_keys_of_lookupA_eq_some uid l _ h
  rw [collect_pcs_mem] at hmem
  obtain ⟨g, hg, s, hs, hsu⟩ := hmem
  intro hnil
  rw [hd] at hnil
  exact (directCosts_eq_nil_iff games uid).mp hnil g hg s hs hsu

theorem collect_pcs_entries_ne_nil (games : List MatchGame) :
    ∀ e ∈ (collect games).pointCosts, e.2 ≠ [] := by
  intro e he
  have hnd := (collect_keys games).2.2
  exact collect_pcs_entry_ne_nil games e.1 e.2
    (lookupA_eq_of_mem_of_nodup _ e he hnd)

theorem finalPointCosts_eq (games : List MatchGame) (finished : Bool)
    (pcs' : List (ℕ × List ℚ))
    (htb : tbStage games finished (collect games).matchScores
      (collect games).pointCosts = some pcs') :
    finalPointCosts games finished =
      some (applyModBonus (collect games).modsMap pcs') := by
  unfold finalPointCosts
  rw [htb]
  rfl

theorem finalPointCosts_total (games : List MatchGame) (finished : Bool) :
    ∃ pcs, finalPointCosts games finished = some pcs ∧
      keysA pcs = keysA (collect games).pointCosts := by
  obtain ⟨pcs', htb, hkeys, _⟩ := tbStage_spec games finished
    (collect games).matchScores (collect games).pointCosts
    (collect_pcs_entries_ne_nil games)
  refine ⟨applyModBonus (collect games).modsMap pcs',
    finalPointCosts_eq games finished pcs' htb, ?_⟩
  rw [applyModBonus_keys, hkeys]

theorem process_match_total (games : List MatchGame) (finished : Bool)
    (users : List (ℕ × String)) (h : games ≠ []) :
    ∃ res, process_match games finished users = some res := by
  cases games with
  | nil => exact absurd rfl h
  | cons g0 gs =>
    obtain ⟨pcs, hfp, hkeys⟩ := finalPointCosts_total (g0 :: gs) finished
    have hteams : ∀ e ∈ pcs, e.1 ∈ keysA (collect (g0 :: gs)).teams := by
      intro e he
      have hmem : e.1 ∈ keysA pcs := List.mem_map_of_mem Prod.fst he
      rw [hkeys] at hmem
      rw [(collect_keys (g0 :: gs)).1]
      exact hmem
    obtain ⟨agg, hagg⟩ := aggFold_total users (g0 :: gs).length
      (collect (g0 :: gs)).teams pcs ⟨[], 0, Option.none⟩ hteams
    simp only [process_match, hfp, hagg]
    by_cases htv : g0.teamVS = true
    · simp only [htv, if_true]
      exact ⟨_, rfl⟩
    · simp only [htv, if_false]
      exact ⟨_, rfl⟩

theorem process_match_some_inv (games : List MatchGame) (finished : Bool)
    (users : List (ℕ × String)) (res : MatchResult)
    (h : process_match games finished users = some res) :
    ∃ pcs agg, finalPointCosts games finished = some pcs ∧
      aggFold users games.length (collect games).teams ⟨[], 0, Option.none⟩ pcs =
        some agg ∧
      res.mvpUrl = agg.avatar.getD "" ∧
      ∀ pr ∈ res.resultLists, ∃ t l, lookupA t agg.data = some l ∧ pr ∈ l := by
  cases games with
  | nil => exact Option.noConfusion h
  | cons g0 gs =>
    simp only [process_match] at h
    cases hfp : finalPointCosts (g0 :: gs) finished with
    | none =>
      rw [hfp] at h
      exact Option.noConfusion h
    | some pcs =>
      simp only [hfp] at h
      cases hagg : aggFold users (g0 :: gs).length (collect (g0 :: gs)).teams
          ⟨[], 0, Option.none⟩ pcs with
      | none =>
        rw [hagg] at h
        exact Option.noConfusion h
      | some agg =>
        simp only [hagg] at h
        refine ⟨pcs, agg, rfl, hagg, ?_⟩
        by_cases htv : g0.teamVS = true
        · simp only [htv, if_true] at h
          obtain rfl := Option.some.inj h
          refine ⟨rfl, ?_⟩
          intro pr hpr
          rcases List.mem_append.mp hpr with hpr | hpr
          · cases hb : lookupA Team.blue agg.data with
            | none =>
              rw [hb] at hpr
              cases hpr
            | some l =>
              rw [hb] at hpr
              exact ⟨Team.blue, l, hb, (mem_sortDesc l pr).mp hpr⟩
          · cases hr : lookupA Team.red agg.data with
            | none =>
              rw [hr] at hpr
              cases hpr
            | some l =>
              rw [hr] at hpr
              exact ⟨Team.red, l, hr, (mem_sortDesc l pr).mp hpr⟩
        · simp only [htv, if_false] at h
          obtain rfl := Option.some.inj h
          refine ⟨rfl, ?_⟩
          intro pr hpr
          cases hn : lookupA Team.none agg.data with
          | none =>
            rw [hn] at hpr
            simp only [Option.getD_none] at hpr
            cases (mem_sortDesc [] pr).mp hpr
          | some l =>
            rw [hn] at hpr
            exact ⟨Team.none, l, hn, (mem_sortDesc l pr).mp hpr⟩

/-! ### Positivity and neutrality facts -/

theorem sum_filter_pos_scores (l : List MatchScore) :
    ((l.filter (fun s => 0 < s.score)).map MatchScore.score).sum =
      (l.map MatchScore.score).sum := by
  induction l with
  | nil => rfl
  | cons s t ih =>
    simp only [List.filter_cons, List.map_cons, List.sum_cons]
    by_cases h : 0 < s.score
    · simp [h, ih]
    · have hz : s.score = 0 := Nat.eq_zero_of_not_pos h
      simp [h, ih, hz]

theorem gameAvg_pos (g : MatchGame) (s : MatchScore) (hs : s ∈ validScores g) :
    0 < gameAvg g := by
  obtain ⟨hmem, hpos⟩ := (mem_validScores g s).mp hs
  have hsum : 0 < scoreSum g := by
    unfold scoreSum
    have hle : s.score ≤ (g.scores.map MatchScore.score).sum :=
      List.single_le_sum (fun x _ => Nat.zero_le x) s.score
        (List.mem_map_of_mem MatchScore.score hmem)
    omega
  have hcount : 0 < nValid g := List.length_pos.mpr (List.ne_nil_of_mem hs)
  unfold gameAvg
  have h1 : (0 : ℚ) < (scoreSum g : ℚ) := by exact_mod_cast hsum
  have h2 : (0 : ℚ) < (nValid g : ℚ) := by exact_mod_cast hcount
  exact div_pos h1 h2

theorem pointCost_gt_half (g : MatchGame) (s : MatchScore)
    (hs : s ∈ validScores g) :
    (1 / 2 : ℚ) < pointCost g s := by
  obtain ⟨hmem, hpos⟩ := (mem_validScores g s).mp hs
  have hscore : (0 : ℚ) < (s.score : ℚ) := by exact_mod_cast hpos
  have hdiv : 0 < (s.score : ℚ) / gameAvg g := div_pos hscore (gameAvg_pos g s hs)
  unfold pointCost FLAT_PARTICIPATION_BONUS
  norm_num
  linarith

theorem mem_directCosts (games : List MatchGame) (uid : ℕ) (x : ℚ)
    (hx : x ∈ directCosts games uid) :
    ∃ g ∈ games, ∃ s ∈ validScores g, x = pointCost g s := by
  induction games with
  | nil => cases hx
  | cons g gs ih =>
    rcases List.mem_append.mp hx with hx | hx
    · obtain ⟨s, hs, heq⟩ := List.mem_map.mp hx
      exact ⟨g, List.mem_cons_self g gs, s, List.mem_of_mem_filter hs, heq.symm⟩
    · obtain ⟨g', hg', s, hs, heq⟩ := ih hx
      exact ⟨g', List.mem_cons_of_mem g hg', s, hs, heq⟩

theorem directCosts_gt_half (games : List MatchGame) (uid : ℕ) :
    ∀ x ∈ directCosts games uid, (1 / 2 : ℚ) < x := by
  intro x hx
  obtain ⟨g, _, s, hs, heq⟩ := mem_directCosts games uid x hx
  exact heq ▸ pointCost_gt_half g s hs

theorem amodify_mem {κ α : Type} [DecidableEq κ] (k : κ) (f : α → α)
    (l : List (κ × α)) :
    ∀ e ∈ amodify k f l, e ∈ l ∨ ∃ e' ∈ l, e.1 = e'.1 ∧ e.2 = f e'.2 := by
  induction l with
  | nil => intro e he; cases he
  | cons p t ih =>
    obtain ⟨k', v⟩ := p
    intro e he
    by_cases h : k' = k
    · rw [amodify, if_pos h] at he
      rcases List.mem_cons.mp he with he | he
      · exact Or.inr ⟨(k', v), List.mem_cons_self _ _, by rw [he], by rw [he]⟩
      · exact Or.inl (List.mem_cons_of_mem _ he)
    · rw [amodify, if_neg h] at he
      rcases List.mem_cons.mp he with he | he
      · exact Or.inl (he ▸ List.mem_cons_self _ _)
      · rcases ih e he with he' | ⟨e', he', h1, h2⟩
        · exact Or.inl (List.mem_cons_of_mem _ he')
        · exact Or.inr ⟨e', List.mem_cons_of_mem _ he', h1, h2⟩

theorem applyModBonus_preserves (mm : List (ℕ × List ℕ))
    (pcs : List (ℕ × List ℚ)) (P : ℚ → Prop)
    (hP : ∀ (x : ℚ) (k : ℕ), P x → P (x * (1 + (k : ℚ) * MOD_BONUS)))
    (h : ∀ e ∈ pcs, ∀ x ∈ e.2, P x) :
    ∀ e ∈ applyModBonus mm pcs, ∀ x ∈ e.2, P x := by
  induction mm generalizing pcs with
  | nil => exact h
  | cons q t ih =>
    have hstep : applyModBonus (q :: t) pcs =
        applyModBonus t
          (if 2 < q.2.length then
            amodify q.1
              (List.map (fun c => c * (1 + ((q.2.length - 2 : ℕ) : ℚ) * MOD_BONUS))) pcs
          else pcs) := rfl
    rw [hstep]
    refine ih _ ?_
    by_cases hl : 2 < q.2.length
    · rw [if_pos hl]
      intro e he x hx
      rcases amodify_mem q.1 _ pcs e he with he' | ⟨e', he', _, h2⟩
      · exact h e he' x hx
      · rw [h2] at hx
        obtain ⟨y, hy, heq⟩ := List.mem_map.mp hx
        exact heq ▸ hP y _ (h e' he' y hy)
    · rw [if_neg hl]
      exact h

theorem processGame_allzero (st : CollectState) (g : MatchGame)
    (h : ∀ s ∈ g.scores, s.score = 0) : processGame st g = st := by
  have hv : validScores g = [] := by
    unfold validScores
    rw [List.filter_eq_nil_iff]
    intro s hs
    simp [h s hs]
  unfold processGame pcsGame teamsGame modsGame winnerTeam teamScores
  rw [hv]
  simp [maxByLast, MatchScores.incr]

theorem matchCost_pos (n : ℕ) (costs : List ℚ) (hne : costs ≠ [])
    (hpos : ∀ x ∈ costs, (0 : ℚ) < x) : 0 < matchCost n costs := by
  have hsum : 0 < costs.sum := List.sum_pos costs hpos hne
  have hlen : (0 : ℚ) < (costs.length : ℚ) := by
    exact_mod_cast List.length_pos.mpr hne
  have hmean : (0 : ℚ) < costs.sum / (costs.length : ℚ) := div_pos hsum hlen
  unfold matchCost
  have hbase : (0 : ℝ) < BASE_PARTICIPATION_BONUS := by
    norm_num [BASE_PARTICIPATION_BONUS]
  refine mul_pos ?_ (Real.rpow_pos_of_pos hbase _)
  exact_mod_cast hmean

theorem matchCost_single (costs : List ℚ) :
    matchCost 1 costs = (((costs.sum / (costs.length : ℚ)) : ℚ) : ℝ) := by
  unfold matchCost
  rw [if_pos rfl, Real.zero_rpow (by norm_num [EXP_PARTICIPATION_BONUS]),
    Real.rpow_zero, mul_one]

/-! ### Spec-side point-cost formula (for comparison with the source) -/

/-- Spec-side game average: the sum of scores among valid scorers divided by
the count of valid scorers. -/
def specAvg (g : MatchGame) : ℚ :=
  ((((validScores g).map MatchScore.score).sum : ℕ) : ℚ) /
    (((validScores g).length : ℕ) : ℚ)

/-- Spec-side point costs of one player: for each valid score,
`score / average + 0.5`, in game order. -/
def specCosts : List MatchGame → ℕ → List ℚ
  | [], _ => []
  | g :: gs, uid =>
    (((validScores g).filter (fun s => s.user_id = uid)).map
        (fun s => (s.score : ℚ) / specAvg g + 0.5)) ++
      specCosts gs uid

theorem specAvg_eq_gameAvg (g : MatchGame) : specAvg g = gameAvg g := by
  unfold specAvg gameAvg nValid scoreSum validScores
  rw [sum_filter_pos_scores]

theorem specCosts_eq_directCosts (games : List MatchGame) (uid : ℕ) :
    specCosts games uid = directCosts games uid := by
  induction games with
  | nil => rfl
  | cons g gs ih =>
    simp only [specCosts, directCosts, gameCosts, ih]
    congr 1
    apply List.map_congr_left
    intro s _
    rw [specAvg_eq_gameAvg]
    rfl

/-! ### Concrete example matches -/

/-- Head-to-head, one game, two players scoring 100 and 300 with no mods. -/
def gEx1 : MatchGame := ⟨[⟨1, 100, Team.none, 0⟩, ⟨2, 300, Team.none, 0⟩], false⟩

/-- Game 1 of the tiebreaker example: blue 200, red 100. -/
def gTB1 : MatchGame := ⟨[⟨1, 200, Team.blue, 0⟩, ⟨2, 100, Team.red, 0⟩], true⟩

/-- Game 2 of the tiebreaker example: blue 100, red 300. -/
def gTB2 : MatchGame := ⟨[⟨1, 100, Team.blue, 0⟩, ⟨2, 300, Team.red, 0⟩], true⟩

/-- Game 3 of the tiebreaker example: player 1 present with score 0, red
wins with 300. -/
def gTB3 : MatchGame := ⟨[⟨1, 0, Team.blue, 0⟩, ⟨2, 300, Team.red, 0⟩], true⟩

/-- A finished 3-game match decided 2-1 for red. -/
def exTB : List MatchGame := [gTB1, gTB2, gTB3]

/-- Evaluation of the 100/300 single-game head-to-head example. -/
theorem gEx1_eval : process_match [gEx1] false [] =
    some (MatchResult.headToHead [(2, 2), (1, 1)] "") := by
  norm_num [process_match, finalPointCosts, collect, processGame, pcsGame,
    teamsGame, modsGame, validScores, pointCost, gameAvg, scoreSum, nValid,
    teamScores, winnerTeam, maxByLast, upsert, lookupA, insertSet,
    modsWithoutNF, FLAT_PARTICIPATION_BONUS, MOD_BONUS, tbStage, tbMap,
    applyModBonus, amodify, aggFold, aggStep, matchCost_single, sortDesc,
    insertDesc, MatchScores.incr, MatchScores.difference, gEx1, List.foldl,
    List.filter, Option.getD]

/-- C1: for every game and every valid scorer of that game, the collection
pass records the point cost `score / average + 0.5`, where the average is
the sum of scores among valid scorers divided by their count; in
particular, the single-game head-to-head match with scores 100 and 300
produces the final match costs 1.0 and 2.0 (sorted 2.0 first). -/
theorem C1_point_cost_formula :
    (∀ (games : List MatchGame) (uid : ℕ),
      (lookupA uid (collect games).pointCosts).getD [] = specCosts games uid) ∧
    process_match [gEx1] false [] =
      some (MatchResult.headToHead [(2, 2), (1, 1)] "") := by
  constructor
  · intro games uid
    rw [collect_pcs_getD, specCosts_eq_directCosts]
  · exact gEx1_eval

/-- C2 (evaluation at the failing input): in the finished 3-game match
`exTB`, decided 2-1, player 1 has no valid score in the last game (only a
score-0 record), yet the tiebreaker stage rewrites player 1's most recent
point cost — the one from game 2 — from 1 to 1 * 2 - 0.5 = 3/2; the claim
says the point costs of players other than the last game's valid scorers
are unchanged. -/
theorem C2_tiebreaker_hits_zero_scorer :
    (validScores gTB3).filter (fun s => s.user_id = 1) = [] ∧
    (collect exTB).pointCosts = [(1, [11/6, 1]), (2, [7/6, 2, 3/2])] ∧
    tbStage exTB true (collect exTB).matchScores (collect exTB).pointCosts =
      some [(1, [11/6, 3/2]), (2, [7/6, 2, 5/2])] := by
  refine ⟨by norm_num [validScores, gTB3, List.filter], ?_, ?_⟩
  · norm_num [collect, processGame, pcsGame, teamsGame, modsGame, validScores,
      pointCost, gameAvg, scoreSum, nValid, teamScores, winnerTeam, maxByLast,
      upsert, lookupA, insertSet, modsWithoutNF, FLAT_PARTICIPATION_BONUS,
      MatchScores.incr, exTB, gTB1, gTB2, gTB3, List.foldl, List.filter]
  · norm_num [collect, processGame, pcsGame, teamsGame, modsGame, validScores,
      pointCost, gameAvg, scoreSum, nValid, teamScores, winnerTeam, maxByLast,
      upsert, lookupA, insertSet, modsWithoutNF, FLAT_PARTICIPATION_BONUS,
      TIEBREAKER_BONUS, MatchScores.incr, MatchScores.difference, tbStage,
      tbMap, tbAdjust, updateLastQ, exTB, gTB1, gTB2, gTB3, List.foldl,
      List.filter, List.any]

/-! ### Winner-team characterisation (C8) -/

theorem finalPointCosts_keys (games : List MatchGame) (finished : Bool)
    (pcs : List (ℕ × List ℚ)) (h : finalPointCosts games finished = some pcs) :
    keysA pcs = keysA (collect games).pointCosts := by
  obtain ⟨pcs', hfp, hkeys⟩ := finalPointCosts_total games finished
  rw [h] at hfp
  obtain rfl := Option.some.inj hfp
  exact hkeys

theorem filter_uid_length_le_one (l : List MatchScore) (uid : ℕ)
    (h : (l.map MatchScore.user_id).Nodup) :
    (l.filter (fun s => s.user_id = uid)).length ≤ 1 := by
  induction l with
  | nil => simp
  | cons s t ih =>
    simp only [List.map_cons, List.nodup_cons] at h
    obtain ⟨hs, ht⟩ := h
    simp only [List.filter_cons]
    by_cases hu : s.user_id = uid
    · have hnil : t.filter (fun x => x.user_id = uid) = [] := by
        rw [List.filter_eq_nil_iff]
        intro x hx
        simp only [decide_eq_true_eq]
        intro hxu
        apply hs
        rw [hu, ← hxu]
        exact List.mem_map_of_mem MatchScore.user_id hx
      simp [hu, hnil]
    · simp [hu, ih ht]

theorem gameCosts_length_le_one (g : MatchGame) (uid : ℕ)
    (h : (g.scores.map MatchScore.user_id).Nodup) :
    (gameCosts g uid).length ≤ 1 := by
  unfold gameCosts
  rw [List.length_map]
  apply filter_uid_length_le_one
  have hsub : List.Sublist (validScores g) g.scores := List.filter_sublist g.scores
  exact List.Nodup.sublist (hsub.map MatchScore.user_id) h

theorem directCosts_length_le (games : List MatchGame) (uid : ℕ)
    (h : ∀ g ∈ games, (g.scores.map MatchScore.user_id).Nodup) :
    (directCosts games uid).length ≤ games.length := by
  induction games with
  | nil => simp [directCosts]
  | cons g gs ih =>
    simp only [directCosts, List.length_append, List.length_cons]
    have h1 := gameCosts_length_le_one g uid (h g (List.mem_cons_self g gs))
    have h2 := ih (fun x hx => h x (List.mem_cons_of_mem g hx))
    omega

/-- C10: after the collection pass, the teams map and the point-costs map
have identical key sequences; every recorded point-cost list is non-empty;
when no player appears twice inside one game's score list, a player's list
has at most one entry per game; and the tiebreaker and aggregation stages
always succeed (no team lookup or last-element access fails). -/
theorem C10_collect_invariants :
    (∀ games : List MatchGame,
      keysA (collect games).teams = keysA (collect games).pointCosts) ∧
    (∀ (games : List MatchGame) (uid : ℕ) (l : List ℚ),
      lookupA uid (collect games).pointCosts = some l → l ≠ []) ∧
    (∀ (games : List MatchGame) (uid : ℕ) (l : List ℚ),
      (∀ g ∈ games, (g.scores.map MatchScore.user_id).Nodup) →
      lookupA uid (collect games).pointCosts = some l →
      l.length ≤ games.length) ∧
    (∀ (games : List MatchGame) (finished : Bool) (users : List (ℕ × String)),
      ∃ pcs agg, finalPointCosts games finished = some pcs ∧
        aggFold users games.length (collect games).teams ⟨[], 0, Option.none⟩
          pcs = some agg) := by
  refine ⟨fun games => (collect_keys games).1, ?_, ?_, ?_⟩
  · exact fun games uid l h => collect_pcs_entry_ne_nil games uid l h
  · intro games uid l hnd h
    have hd : l = directCosts games uid := by
      have hgd := collect_pcs_getD games uid
      rw [h] at hgd
      exact hgd
    rw [hd]
    exact directCosts_length_le games uid hnd
  · intro games finished users
    obtain ⟨pcs, hfp, hkeys⟩ := finalPointCosts_total games finished
    have hteams : ∀ e ∈ pcs, e.1 ∈ keysA (collect games).teams := by
      intro e he
      have hmem : e.1 ∈ keysA pcs := List.mem_map_of_mem Prod.fst he
      rw [hkeys] at hmem
      rw [(collect_keys games).1]
      exact hmem
    obtain ⟨agg, hagg⟩ := aggFold_total users games.length
      (collect games).teams pcs ⟨[], 0, Option.none⟩ hteams
    exact ⟨pcs, agg, hfp, hagg⟩

/-- C10 witness: the invariants applied to the concrete one-game match
`gEx1` for player 1. -/
theorem C10_collect_invariants_witness :
    ∃ l : List ℚ, lookupA 1 (collect [gEx1]).pointCosts = some l ∧
      l ≠ [] ∧ l.length ≤ [gEx1].length := by
  have hlook : lookupA 1 (collect [gEx1]).pointCosts = some [1] := by
    norm_num [collect, processGame, pcsGame, teamsGame, modsGame, validScores,
      pointCost, gameAvg, scoreSum, nValid, upsert, lookupA, insertSet,
      modsWithoutNF, FLAT_PARTICIPATION_BONUS, gEx1, List.foldl, List.filter]
  exact ⟨[1], hlook, C10_collect_invariants.2.1 [gEx1] 1 [1] hlook,
    C10_collect_invariants.2.2.1 [gEx1] 1 [1] (by decide) hlook⟩

/-! ### C5: totality and safety -/

theorem applyModBonus_preserves_list (mm : List (ℕ × List ℕ))
    (pcs : List (ℕ × List ℚ)) (Q : List ℚ → Prop)
    (hQ : ∀ (l : List ℚ) (k : ℕ), Q l →
      Q (l.map (fun c => c * (1 + (k : ℚ) * MOD_BONUS))))
    (h : ∀ e ∈ pcs, Q e.2) :
    ∀ e ∈ applyModBonus mm pcs, Q e.2 := by
  induction mm generalizing pcs with
  | nil => exact h
  | cons q t ih =>
    have hstep : applyModBonus (q :: t) pcs =
        applyModBonus t
          (if 2 < q.2.length then
            amodify q.1
              (List.map (fun c => c * (1 + ((q.2.length - 2 : ℕ) : ℚ) * MOD_BONUS))) pcs
          else pcs) := rfl
    rw [hstep]
    refine ih _ ?_
    by_cases hl : 2 < q.2.length
    · rw [if_pos hl]
      intro e he
      rcases amodify_mem q.1 _ pcs e he with he' | ⟨e', he', _, h2⟩
      · exact h e he'
      · rw [h2]
        exact hQ e'.2 _ (h e' he')
    · rw [if_neg hl]
      exact h

theorem finalPointCosts_entries (games : List MatchGame) (finished : Bool)
    (pcs : List (ℕ × List ℚ)) (h : finalPointCosts games finished = some pcs) :
    ∀ e ∈ pcs, e.2 ≠ [] ∧ ∀ x ∈ e.2, (1 / 2 : ℚ) < x := by
  obtain ⟨pcs', htb, hkeys, helem⟩ := tbStage_spec games finished
    (collect games).matchScores (collect games).pointCosts
    (collect_pcs_entries_ne_nil games)
  have hfp := finalPointCosts_eq games finished pcs' htb
  rw [h] at hfp
  obtain rfl := Option.some.inj hfp
  have hcol : ∀ e ∈ (collect games).pointCosts,
      e.2 ≠ [] ∧ ∀ x ∈ e.2, (1 / 2 : ℚ) < x := by
    intro e he
    have hnd := (collect_keys games).2.2
    have hlook := lookupA_eq_of_mem_of_nodup _ e he hnd
    have hd : e.2 = directCosts games e.1 := by
      have hgd := collect_pcs_getD games e.1
      rw [hlook] at hgd
      exact hgd
    refine ⟨collect_pcs_entry_ne_nil games e.1 e.2 hlook, ?_⟩
    rw [hd]
    exact directCosts_gt_half games e.1
  have htbent : ∀ e' ∈ pcs', e'.2 ≠ [] ∧ ∀ x ∈ e'.2, (1 / 2 : ℚ) < x := by
    intro e' he'
    obtain ⟨e, he, _, hlen, hel⟩ := helem e' he'
    obtain ⟨hne, hpos⟩ := hcol e he
    constructor
    · intro hnil
      rw [hnil] at hlen
      exact hne (List.eq_nil_of_length_eq_zero hlen.symm)
    · intro x hx
      rcases hel x hx with hx' | ⟨y, hy, heq⟩
      · exact hpos x hx'
      · have hy2 := hpos y hy
        rw [heq]
        unfold TIEBREAKER_BONUS FLAT_PARTICIPATION_BONUS
        norm_num
        linarith
  refine applyModBonus_preserves_list _ _
    (fun l => l ≠ [] ∧ ∀ x ∈ l, (1 / 2 : ℚ) < x) ?_ htbent
  intro l k hQ
  obtain ⟨hne, hpos⟩ := hQ
  constructor
  · simpa using hne
  · intro x hx
    obtain ⟨y, hy, heq⟩ := List.mem_map.mp hx
    have hy2 := hpos y hy
    have hmb : (0 : ℚ) ≤ MOD_BONUS := by
      unfold MOD_BONUS
      norm_num
    have hf : (1 : ℚ) ≤ 1 + (k : ℚ) * MOD_BONUS := by
      have hk : (0 : ℚ) ≤ (k : ℚ) * MOD_BONUS :=
        mul_nonneg (Nat.cast_nonneg k) hmb
      linarith
    have hyx : y ≤ y * (1 + (k : ℚ) * MOD_BONUS) :=
      le_mul_of_one_le_right (by linarith) hf
    rw [← heq]
    linarith

/-- A game whose only score record is zero. -/
def gZero : MatchGame := ⟨[⟨1, 0, Team.none, 0⟩], false⟩

/-- C5: on any non-empty games list `process_match` succeeds (every panic
site is guarded); a game in which every score is 0 leaves the collection
state untouched — no point costs, no mod records, no team registration, no
won-game increment; and every returned match cost is a (finite) strictly
positive real number. -/
theorem C5_safety :
    (∀ (games : List MatchGame) (finished : Bool) (users : List (ℕ × String)),
      games ≠ [] → ∃ res, process_match games finished users = some res) ∧
    (∀ (st : CollectState) (g : MatchGame),
      (∀ s ∈ g.scores, s.score = 0) → processGame st g = st) ∧
    (∀ (games : List MatchGame) (finished : Bool) (users : List (ℕ × String))
      (res : MatchResult), process_match games finished users = some res →
      ∀ pr ∈ res.resultLists, (0 : ℝ) < pr.2) := by
  refine ⟨process_match_total, processGame_allzero, ?_⟩
  intro games finished users res h pr hpr
  obtain ⟨pcs, agg, hfp, hagg, _, hmem⟩ :=
    process_match_some_inv games finished users res h
  obtain ⟨t, l, hl, hprl⟩ := hmem pr hpr
  refine aggFold_data_inv users games.length (collect games).teams
    (fun p => 0 < p.2) pcs ⟨[], 0, Option.none⟩ agg hagg ?_ ?_ t l hl pr hprl
  · intro t' l' hl'
    exact Option.noConfusion hl'
  · intro e he
    have hent := finalPointCosts_entries games finished pcs hfp e he
    exact matchCost_pos games.length e.2 hent.1
      (fun x hx => lt_trans (by norm_num) (hent.2 x hx))

/-- C5 witness: totality on the concrete one-game match, neutrality of an
all-zero game, and positivity of the concrete outputs. -/
theorem C5_safety_witness :
    (∃ res, process_match [gEx1] false [] = some res) ∧
    processGame ⟨[], [], [], ⟨0, 0⟩⟩ gZero = ⟨[], [], [], ⟨0, 0⟩⟩ ∧
    ∀ pr ∈ [((2 : ℕ), (2 : ℝ)), (1, 1)], (0 : ℝ) < pr.2 := by
  refine ⟨C5_safety.1 [gEx1] false [] (by simp),
    C5_safety.2.1 _ gZero (by decide), ?_⟩
  intro pr hpr
  exact C5_safety.2.2 [gEx1] false [] _ gEx1_eval pr
    (by simpa [MatchResult.resultLists] using hpr)

/-! ### C9: only valid participants appear -/

/-- A one-game match with an extra player whose only score record is 0. -/
def gEx9 : MatchGame :=
  ⟨[⟨1, 100, Team.none, 0⟩, ⟨2, 300, Team.none, 0⟩, ⟨3, 0, Team.none, 0⟩], false⟩

/-- Evaluation of `gEx9`: the zero-score player 3 is absent from the
output. -/
theorem gEx9_eval : process_match [gEx9] false [] =
    some (MatchResult.headToHead [(2, 2), (1, 1)] "") := by
  norm_num [process_match, finalPointCosts, collect, processGame, pcsGame,
    teamsGame, modsGame, validScores, pointCost, gameAvg, scoreSum, nValid,
    teamScores, winnerTeam, maxByLast, upsert, lookupA, insertSet,
    modsWithoutNF, FLAT_PARTICIPATION_BONUS, MOD_BONUS, tbStage, tbMap,
    applyModBonus, amodify, aggFold, aggStep, matchCost_single, sortDesc,
    insertDesc, MatchScores.incr, MatchScores.difference, gEx9, List.foldl,
    List.filter, Option.getD]

/-- C9: every player in the returned match result has a strictly positive
score in at least one game; a player all of whose score records are zero
(or who never appears) is entirely absent from every returned list. -/
theorem C9_only_valid_players :
    (∀ (games : List MatchGame) (finished : Bool) (users : List (ℕ × String))
      (res : MatchResult), process_match games finished users = some res →
      ∀ pr ∈ res.resultLists, ∃ g ∈ games, ∃ s ∈ g.scores,
        s.user_id = pr.1 ∧ 0 < s.score) ∧
    (∀ (games : List MatchGame) (finished : Bool) (users : List (ℕ × String))
      (res : MatchResult) (uid : ℕ),
      process_match games finished users = some res →
      (∀ g ∈ games, ∀ s ∈ g.scores, s.user_id = uid → s.score = 0) →
      ∀ pr ∈ res.resultLists, pr.1 ≠ uid) := by
  have main : ∀ (games : List MatchGame) (finished : Bool)
      (users : List (ℕ × String)) (res : MatchResult),
      process_match games finished users = some res →
      ∀ pr ∈ res.resultLists, ∃ g ∈ games, ∃ s ∈ g.scores,
        s.user_id = pr.1 ∧ 0 < s.score := by
    intro games finished users res h pr hpr
    obtain ⟨pcs, agg, hfp, hagg, _, hmem⟩ :=
      process_match_some_inv games finished users res h
    obtain ⟨t, l, hl, hprl⟩ := hmem pr hpr
    have hkey : pr.1 ∈ keysA pcs := by
      refine aggFold_data_inv users games.length (collect games).teams
        (fun p => p.1 ∈ keysA pcs) pcs ⟨[], 0, Option.none⟩ agg hagg ?_ ?_
        t l hl pr hprl
      · intro t' l' hl'
        exact Option.noConfusion hl'
      · intro e he
        exact List.mem_map_of_mem Prod.fst he
    rw [finalPointCosts_keys games finished pcs hfp] at hkey
    rw [collect_pcs_mem] at hkey
    obtain ⟨g, hg, s, hs, hsu⟩ := hkey
    obtain ⟨hmem', hpos⟩ := (mem_validScores g s).mp hs
    exact ⟨g, hg, s, hmem', hsu, hpos⟩
  refine ⟨main, ?_⟩
  intro games finished users res uid h hzero pr hpr heq
  obtain ⟨g, hg, s, hs, hsu, hpos⟩ := main games finished users res h pr hpr
  have := hzero g hg s hs (heq ▸ hsu)
  omega

/-- C9 witness: in the evaluated `gEx9` match, the zero-score player 3
appears in no returned entry. -/
theorem C9_only_valid_players_witness :
    ∀ pr ∈ [((2 : ℕ), (2 : ℝ)), (1, 1)], pr.1 ≠ 3 := by
  intro pr hpr
  exact C9_only_valid_players.2 [gEx9] false [] _ 3 gEx9_eval (by decide) pr
    (by simpa [MatchResult.resultLists] using hpr)

/-! ### C4: mod-diversity bonus -/

theorem insertSet_mem (m x : ℕ) (l : List ℕ) :
    x ∈ insertSet m l ↔ x ∈ l ∨ x = m := by
  unfold insertSet
  by_cases h : m ∈ l
  · simp only [if_pos h]
    constructor
    · exact Or.inl
    · rintro (hx | rfl)
      exacts [hx, h]
  · simp [if_neg h]

theorem insertSet_nodup (m : ℕ) (l : List ℕ) (h : l.Nodup) :
    (insertSet m l).Nodup := by
  unfold insertSet
  by_cases hm : m ∈ l
  · simpa [hm] using h
  · rw [if_neg hm, List.nodup_append_comm]
    simpa [List.nodup_cons] using ⟨hm, h⟩

theorem foldl_insertSet_nodup (l acc : List ℕ) (h : acc.Nodup) :
    (l.foldl (fun a m => insertSet m a) acc).Nodup := by
  induction l generalizing acc with
  | nil => exact h
  | cons a t ih => exact ih _ (insertSet_nodup a acc h)

theorem foldl_insertSet_mem (l acc : List ℕ) (x : ℕ) :
    x ∈ l.foldl (fun a m => insertSet m a) acc ↔ x ∈ acc ∨ x ∈ l := by
  induction l generalizing acc with
  | nil => simp
  | cons a t ih =>
    simp only [List.foldl_cons]
    rw [ih, insertSet_mem]
    simp only [List.mem_cons]
    tauto

theorem dedupIns_length (l : List ℕ) :
    (l.foldl (fun a m => insertSet m a) []).length = l.toFinset.card := by
  have hnd := foldl_insertSet_nodup l [] List.nodup_nil
  rw [← List.toFinset_card_of_nodup hnd]
  congr 1
  ext x
  simp [List.mem_toFinset, foldl_insertSet_mem]

theorem directMods_eq_nil_iff (games : List MatchGame) (uid : ℕ) :
    directMods games uid = [] ↔
      ∀ g ∈ games, ∀ s ∈ validScores g, s.user_id ≠ uid := by
  induction games with
  | nil => simp [directMods]
  | cons g gs ih =>
    simp only [directMods, List.append_eq_nil, List.map_eq_nil_iff,
      List.filter_eq_nil_iff, ih, List.forall_mem_cons]
    simp

/-- C4: with `k` the number of distinct mod combinations (NoFail removed)
that a player used across their valid scores, the mod-diversity stage leaves
that player's point costs unchanged when `k ≤ 2` and multiplies each of
them by `1 + (k - 2) * 0.02` when `k > 2`. -/
theorem C4_mod_diversity :
    ∀ (games : List MatchGame) (pcs : List (ℕ × List ℚ)) (uid : ℕ),
      ((directMods games uid).toFinset.card ≤ 2 →
        lookupA uid (applyModBonus (collect games).modsMap pcs) =
          lookupA uid pcs) ∧
      (2 < (directMods games uid).toFinset.card →
        lookupA uid (applyModBonus (collect games).modsMap pcs) =
          (lookupA uid pcs).map (List.map (fun c =>
            c * (1 + ((((directMods games uid).toFinset.card - 2 : ℕ)) : ℚ) *
              (0.02 : ℚ))))) := by
  intro games pcs uid
  have hnd : (keysA (collect games).modsMap).Nodup := by
    rw [(collect_keys games).2.1]
    exact (collect_keys games).2.2
  have hmain := lookupA_applyModBonus (collect games).modsMap pcs uid hnd
  cases hms : lookupA uid (collect games).modsMap with
  | none =>
    have hnokey : uid ∉ keysA (collect games).modsMap :=
      (lookupA_eq_none_iff _ _).mp hms
    rw [(collect_keys games).2.1, collect_pcs_mem] at hnokey
    have hdm : directMods games uid = [] := by
      rw [directMods_eq_nil_iff]
      intro g hg s hs heq
      exact hnokey ⟨g, hg, s, hs, heq⟩
    simp only [hms] at hmain
    constructor
    · intro _
      exact hmain
    · intro hlt
      rw [hdm] at hlt
      simp at hlt
  | some ms =>
    have hgd := collect_mods_getD games uid
    rw [hms] at hgd
    simp only [Option.getD_some] at hgd
    have hlen : ms.length = (directMods games uid).toFinset.card := by
      rw [hgd, dedupIns_length]
    simp only [hms] at hmain
    constructor
    · intro hle
      rw [hmain, if_neg (by omega)]
    · intro hlt
      rw [hmain, if_pos (by omega), hlen]
      norm_num [ MOD_BONUS]

/-- Games for the mod-diversity witness: one player using three distinct
mod combinations (nomod, hidden, hardrock). -/
def gM1 : MatchGame := ⟨[⟨1, 100, Team.none, 0⟩], false⟩

/-- Second mod-diversity game (mods bitmask 8). -/
def gM2 : MatchGame := ⟨[⟨1, 100, Team.none, 8⟩], false⟩

/-- Third mod-diversity game (mods bitmask 16). -/
def gM3 : MatchGame := ⟨[⟨1, 100, Team.none, 16⟩], false⟩

/-- The three-game mod-diversity example. -/
def exMods : List MatchGame := [gM1, gM2, gM3]

/-- C4 witness: three distinct combinations multiply each point cost by
1.02. -/
theorem C4_mod_diversity_witness :
    lookupA 1 (applyModBonus (collect exMods).modsMap [(1, [(1 : ℚ)])]) =
      some [(1 : ℚ) * (1 + ((1 : ℕ) : ℚ) * 0.02)] := by
  have hcard : (directMods exMods 1).toFinset.card = 3 := by decide
  have h := (C4_mod_diversity exMods [(1, [(1 : ℚ)])] 1).2 (by omega)
  rw [h, hcard]
  norm_num [lookupA]

/-! ### C3: participation scaling -/

theorem matchCost_full (n : ℕ) (costs : List ℚ) (hn : n ≠ 1)
    (hlen : costs.length = n) :
    matchCost n costs =
      (((costs.sum / (costs.length : ℚ)) : ℚ) : ℝ) * BASE_PARTICIPATION_BONUS := by
  unfold matchCost
  rw [if_neg hn, hlen]
  have hcast : ((n : ℚ) - 1) ≠ 0 := by
    intro hz
    apply hn
    have : (n : ℚ) = 1 := by linarith
    exact_mod_cast this
  have h1 : (((n : ℚ) - 1) / ((n : ℚ) - 1) : ℚ) = 1 := div_self hcast
  rw [h1]
  rw [show ((1 : ℚ) : ℝ) = (1 : ℝ) from by norm_num]
  rw [Real.one_rpow, Real.rpow_one]

theorem matchCost_solo (n : ℕ) (costs : List ℚ) (hn : n ≠ 1)
    (hlen : costs.length = 1) :
    matchCost n costs = (((costs.sum / (costs.length : ℚ)) : ℚ) : ℝ) := by
  unfold matchCost
  rw [if_neg hn, hlen]
  have h0 : ((((1 : ℕ) : ℚ) - 1) / ((n : ℚ) - 1) : ℚ) = 0 := by
    norm_num
  rw [h0]
  rw [show ((0 : ℚ) : ℝ) = (0 : ℝ) from by norm_num]
  rw [Real.zero_rpow (by norm_num [EXP_PARTICIPATION_BONUS]), Real.rpow_zero,
    mul_one]

/-- Game played by player 1 alone (games 1-4 of the 5-game example). -/
def g5a : MatchGame := ⟨[⟨1, 500, Team.none, 0⟩], false⟩

/-- Game 5 of the 5-game example: both players play. -/
def g5b : MatchGame := ⟨[⟨1, 100, Team.none, 0⟩, ⟨2, 300, Team.none, 0⟩], false⟩

/-- The 5-game example: player 1 plays all 5 games, player 2 only the
last. -/
def ex5 : List MatchGame := [g5a, g5a, g5a, g5a, g5b]

/-- Evaluation of the 5-game example: player 1's mean 7/5 is scaled by the
full-participation multiplier 1.4 to 49/25, player 2's mean 2 is left
unscaled. -/
theorem ex5_eval : process_match ex5 false [] =
    some (MatchResult.headToHead [(2, 2), (1, 49 / 25)] "") := by
  have hA : matchCost 5 [3 / 2, 3 / 2, 3 / 2, 3 / 2, 1] = ((49 : ℝ) / 25) := by
    rw [matchCost_full 5 _ (by norm_num) (by norm_num)]
    norm_num [BASE_PARTICIPATION_BONUS]
  have hB : matchCost 5 [2] = 2 := by
    rw [matchCost_solo 5 [2] (by norm_num) (by norm_num)]
    norm_num
  norm_num [process_match, finalPointCosts, collect, processGame, pcsGame,
    teamsGame, modsGame, validScores, pointCost, gameAvg, scoreSum, nValid,
    teamScores, winnerTeam, maxByLast, upsert, lookupA, insertSet,
    modsWithoutNF, FLAT_PARTICIPATION_BONUS, MOD_BONUS, tbStage, tbMap,
    applyModBonus, amodify, aggFold, aggStep, hA, hB, sortDesc,
    insertDesc, MatchScores.incr, MatchScores.difference, ex5, g5a, g5b,
    List.foldl, List.filter, Option.getD]

/-- C3: every returned match cost is the mean of that player's (adjusted)
point costs times `1.4 ^ (exponent ^ 0.6)`, the exponent being 0 for a
single-game match and `(n_played - 1) / (n_total - 1)` otherwise; in the
5-game example the full participant is scaled by 1.4 and the single-game
participant by 1. -/
theorem C3_participation_scaling :
    (∀ (games : List MatchGame) (finished : Bool) (users : List (ℕ × String))
      (res : MatchResult), process_match games finished users = some res →
      ∀ pr ∈ res.resultLists, ∃ pcs costs,
        finalPointCosts games finished = some pcs ∧
        lookupA pr.1 pcs = some costs ∧
        pr.2 = (((costs.sum / (costs.length : ℚ)) : ℚ) : ℝ) *
          (1.4 : ℝ) ^
            ((if games.length = 1 then (0 : ℝ)
              else ((((costs.length : ℚ) - 1) / ((games.length : ℚ) - 1) : ℚ) : ℝ)) ^
              (0.6 : ℝ))) ∧
    process_match ex5 false [] =
      some (MatchResult.headToHead [(2, 2), (1, 49 / 25)] "") ∧
    ((49 : ℝ) / 25) = (7 / 5) * (1.4 : ℝ) ^ ((1 : ℝ) ^ (0.6 : ℝ)) ∧
    (2 : ℝ) = 2 * (1.4 : ℝ) ^ ((0 : ℝ) ^ (0.6 : ℝ)) := by
  refine ⟨?_, ex5_eval, ?_, ?_⟩
  · intro games finished users res h pr hpr
    obtain ⟨pcs, agg, hfp, hagg, _, hmem⟩ :=
      process_match_some_inv games finished users res h
    obtain ⟨t, l, hl, hprl⟩ := hmem pr hpr
    have hknd : (keysA pcs).Nodup := by
      rw [finalPointCosts_keys games finished pcs hfp]
      exact (collect_keys games).2.2
    have hP := aggFold_data_inv users games.length (collect games).teams
      (fun p => ∃ costs, lookupA p.1 pcs = some costs ∧
        p.2 = matchCost games.length costs)
      pcs ⟨[], 0, Option.none⟩ agg hagg
      (fun t' l' hl' => absurd hl' (by simp [lookupA]))
      (fun e he => ⟨e.2, lookupA_eq_of_mem_of_nodup pcs e he hknd, rfl⟩)
      t l hl pr hprl
    obtain ⟨costs, hlook, heq⟩ := hP
    refine ⟨pcs, costs, hfp, hlook, ?_⟩
    rw [heq]
    unfold matchCost BASE_PARTICIPATION_BONUS EXP_PARTICIPATION_BONUS
    norm_num
  · rw [Real.one_rpow, Real.rpow_one]
    norm_num
  · rw [Real.zero_rpow (by norm_num), Real.rpow_zero]
    norm_num

/-- C3 witness: the formula instantiated at the 5-game example for player 2
(cost 2, one played game). -/
theorem C3_participation_scaling_witness :
    ∃ pcs costs, finalPointCosts ex5 false = some pcs ∧
      lookupA 2 pcs = some costs ∧
      (2 : ℝ) = (((costs.sum / (costs.length : ℚ)) : ℚ) : ℝ) *
        (1.4 : ℝ) ^
          ((if ex5.length = 1 then (0 : ℝ)
            else ((((costs.length : ℚ) - 1) / ((ex5.length : ℚ) - 1) : ℚ) : ℝ)) ^
            (0.6 : ℝ)) := by
  have h := C3_participation_scaling.1 ex5 false [] _ ex5_eval (2, 2)
    (by simp [MatchResult.resultLists])
  exact h

/-! ### C7: MVP tracking -/

/-- Evaluation of a match consisting of one all-zero game: empty result,
empty MVP avatar. -/
theorem gZero_eval : process_match [gZero] false [] =
    some (MatchResult.headToHead [] "") := by
  norm_num [process_match, finalPointCosts, collect, processGame, pcsGame,
    teamsGame, modsGame, validScores, pointCost, gameAvg, scoreSum, nValid,
    teamScores, winnerTeam, maxByLast, upsert, lookupA, insertSet,
    modsWithoutNF, tbStage, tbMap, applyModBonus, aggFold, sortDesc,
    MatchScores.incr, MatchScores.difference, gZero, List.foldl, List.filter,
    Option.getD]

/-- C7: the aggregation pass records a highest cost that bounds every
returned cost and is achieved by some aggregated entry (or is 0); a step
whose match cost does not strictly exceed the current highest changes
neither the highest cost nor the avatar (ties keep the first-processed
MVP); a player missing from the users lookup still gets a data entry but
never contributes an avatar; and if no entry has positive match cost the
returned avatar reference is the empty string. -/
theorem C7_mvp_tracking :
    (∀ (games : List MatchGame) (finished : Bool) (users : List (ℕ × String))
      (res : MatchResult), process_match games finished users = some res →
      ∃ pcs agg, finalPointCosts games finished = some pcs ∧
        aggFold users games.length (collect games).teams ⟨[], 0, Option.none⟩
          pcs = some agg ∧
        res.mvpUrl = agg.avatar.getD "" ∧
        (∀ pr ∈ res.resultLists, pr.2 ≤ agg.highest) ∧
        (agg.highest = 0 ∨ ∃ t l p, lookupA t agg.data = some l ∧ p ∈ l ∧
          p.2 = agg.highest)) ∧
    (∀ (users : List (ℕ × String)) (n : ℕ) (teams : List (ℕ × Team))
      (st st' : AggState) (e : ℕ × List ℚ),
      aggStep users n teams st e = some st' →
      matchCost n e.2 ≤ st.highest →
      st'.highest = st.highest ∧ st'.avatar = st.avatar) ∧
    (∀ (users : List (ℕ × String)) (n : ℕ) (teams : List (ℕ × Team))
      (st st' : AggState) (e : ℕ × List ℚ),
      aggStep users n teams st e = some st' →
      lookupA e.1 users = Option.none →
      st'.avatar = st.avatar ∧
      ∃ tm l, lookupA tm st'.data = some l ∧ (e.1, matchCost n e.2) ∈ l) ∧
    (∀ (games : List MatchGame) (finished : Bool) (users : List (ℕ × String))
      (res : MatchResult), process_match games finished users = some res →
      (∀ pcs, finalPointCosts games finished = some pcs →
        ∀ e ∈ pcs, matchCost games.length e.2 ≤ 0) →
      res.mvpUrl = "") := by
  refine ⟨?_, ?_, ?_, ?_⟩
  · intro games finished users res h
    obtain ⟨pcs, agg, hfp, hagg, hurl, hmem⟩ :=
      process_match_some_inv games finished users res h
    refine ⟨pcs, agg, hfp, hagg, hurl, ?_, ?_⟩
    · intro pr hpr
      obtain ⟨t, l, hl, hprl⟩ := hmem pr hpr
      exact aggFold_bound users games.length (collect games).teams pcs
        ⟨[], 0, Option.none⟩ agg hagg
        (fun t' l' hl' => absurd hl' (by simp [lookupA])) t l hl pr hprl
    · exact aggFold_achieved users games.length (collect games).teams pcs
        ⟨[], 0, Option.none⟩ agg hagg (Or.inl rfl)
  · intro users n teams st st' e h hle
    cases hteam : lookupA e.1 teams with
    | none =>
      rw [aggStep_none users n teams st e hteam] at h
      exact Option.noConfusion h
    | some tm =>
      rw [aggStep_some users n teams st e tm hteam] at h
      obtain rfl := Option.some.inj h
      constructor
      · show (if st.highest < matchCost n e.2 then matchCost n e.2
          else st.highest) = st.highest
        rw [if_neg (not_lt_of_le hle)]
      · show (if st.highest < matchCost n e.2 then
            match lookupA e.1 users with
            | some url => some url
            | Option.none => st.avatar
          else st.avatar) = st.avatar
        rw [if_neg (not_lt_of_le hle)]
  · intro users n teams st st' e h hnone
    cases hteam : lookupA e.1 teams with
    | none =>
      rw [aggStep_none users n teams st e hteam] at h
      exact Option.noConfusion h
    | some tm =>
      rw [aggStep_some users n teams st e tm hteam] at h
      obtain rfl := Option.some.inj h
      constructor
      · show (if st.highest < matchCost n e.2 then
            match lookupA e.1 users with
            | some url => some url
            | Option.none => st.avatar
          else st.avatar) = st.avatar
        rw [hnone]
        split
        · rfl
        · rfl
      · refine ⟨tm, _, lookupA_upsert_self tm _ _ st.data, ?_⟩
        cases hold : lookupA tm st.data with
        | none => simp [hold]
        | some v => simp [hold]
  · intro games finished users res h hle
    obtain ⟨pcs, agg, hfp, hagg, hurl, _⟩ :=
      process_match_some_inv games finished users res h
    have hni := aggFold_noimprove users games.length (collect games).teams pcs
      ⟨[], 0, Option.none⟩ agg hagg (fun e he => hle pcs hfp e he)
    rw [hurl, hni.2]
    rfl

/-- C7 witness: the four parts instantiated at concrete inputs — the
two-player example, a tie step, a missing-user step, and the all-zero
match. -/
theorem C7_mvp_tracking_witness :
    (∃ pcs agg, finalPointCosts [gEx1] false = some pcs ∧
      aggFold [] [gEx1].length (collect [gEx1]).teams ⟨[], 0, Option.none⟩
        pcs = some agg ∧
      (MatchResult.headToHead [(2, 2), (1, 1)] "").mvpUrl = agg.avatar.getD "" ∧
      (∀ pr ∈ (MatchResult.headToHead [(2, 2), (1, 1)] "").resultLists,
        pr.2 ≤ agg.highest) ∧
      (agg.highest = 0 ∨ ∃ t l p, lookupA t agg.data = some l ∧ p ∈ l ∧
        p.2 = agg.highest)) ∧
    (∃ st' : AggState,
      aggStep [] 1 [(1, Team.none)] ⟨[], 5, Option.none⟩ (1, [1]) = some st' ∧
      st'.highest = 5 ∧ st'.avatar = Option.none ∧
      ∃ tm l, lookupA tm st'.data = some l ∧
        ((1 : ℕ), matchCost 1 [1]) ∈ l) ∧
    (MatchResult.headToHead [] "").mvpUrl = "" := by
  refine ⟨C7_mvp_tracking.1 [gEx1] false [] _ gEx1_eval, ?_, ?_⟩
  · have hstep := aggStep_some [] 1 [(1, Team.none)] ⟨[], 5, Option.none⟩
      (1, [1]) Team.none (by simp [lookupA])
    refine ⟨_, hstep, ?_⟩
    have hle : matchCost 1 [1] ≤ (5 : ℝ) := by
      rw [matchCost_single]
      norm_num
    have h := C7_mvp_tracking.2.1 [] 1 [(1, Team.none)] ⟨[], 5, Option.none⟩
      _ (1, [1]) hstep hle
    have h3 := C7_mvp_tracking.2.2.1 [] 1 [(1, Team.none)]
      ⟨[], 5, Option.none⟩ _ (1, [1]) hstep (by simp [lookupA])
    exact ⟨h.1, h.2, h3.2⟩
  · refine C7_mvp_tracking.2.2.2 [gZero] false [] _ gZero_eval ?_
    intro pcs hpcs e he
    have hz : finalPointCosts [gZero] false = some [] := by
      norm_num [finalPointCosts, collect, processGame, pcsGame, teamsGame,
        modsGame, validScores, winnerTeam, teamScores, maxByLast, tbStage,
        tbMap, applyModBonus, MatchScores.incr, MatchScores.difference, gZero,
        List.foldl, List.filter]
    rw [hz] at hpcs
    obtain rfl := Option.some.inj hpcs
    cases he

/-! ### Sortedness of the result vectors

The non-ascending ordering produced by the `sort!` macro is provable; the
source's `sort_unstable_by` makes no promise about the relative order of
equal-cost entries, and the iteration order of the hash maps feeding the
sort is unspecified, so no stability statement is made here. -/

theorem insertDesc_pairwise (x : ℕ × ℝ) (l : List (ℕ × ℝ))
    (h : l.Pairwise (fun a b => b.2 ≤ a.2)) :
    (insertDesc x l).Pairwise (fun a b => b.2 ≤ a.2) := by
  induction l with
  | nil => simp [insertDesc]
  | cons y t ih =>
    rw [List.pairwise_cons] at h
    obtain ⟨hy, ht⟩ := h
    unfold insertDesc
    by_cases hc : x.2 ≤ y.2
    · rw [if_pos hc, List.pairwise_cons]
      refine ⟨?_, ih ht⟩
      intro b hb
      rcases List.mem_cons.mp ((insertDesc_perm x t).mem_iff.mp hb) with rfl | hb
      · exact hc
      · exact hy b hb
    · rw [if_neg hc, List.pairwise_cons]
      refine ⟨?_, List.pairwise_cons.mpr ⟨hy, ht⟩⟩
      intro b hb
      rcases List.mem_cons.mp hb with rfl | hb
      · exact le_of_lt (lt_of_not_le hc)
      · exact le_trans (hy b hb) (le_of_lt (lt_of_not_le hc))

theorem sortDesc_pairwise (l : List (ℕ × ℝ)) :
    (sortDesc l).Pairwise (fun a b => b.2 ≤ a.2) := by
  induction l with
  | nil => simp [sortDesc]
  | cons x t ih => exact insertDesc_pairwise x (sortDesc t) ih

end Bathbot
